import Mathlib

/-!
Verification development for the bipartite-matching library
(BipartiteGraph / AssignmentProblem modules).

Modelling conventions (shallow embedding of the Python sources):

* Python sets and dicts are modelled as insertion-ordered lists without
  duplicates; a set insertion is a membership-guarded append, a dict
  assignment replaces the binding in place or appends a fresh one.  Where
  the Python code iterates over a set, the embedding iterates in insertion
  order (Python's set iteration order is unspecified, so this is one
  determinisation of the source's behaviour).
* A BipartiteGraph object is a pair of node lists plus one flat edge list;
  a Node's outgoing (incoming) edge set of the Python object graph is
  recovered as the edges whose source (terminal) name matches, which is
  exact for every state the library itself can build, since names are
  unique and edges are wired into exactly their two endpoints.
* Numeric weights and attribute numbers are Int; Python float infinity in
  Dijkstra is Option Int with none standing for infinity.
* Python exceptions are Except String; Python None is Option.
-/

/-- Attribute values stored in the attribute dictionaries of nodes and
edges: the library stores numbers and booleans there. -/
inductive AVal where
  | ib (z : Int)
  | bb (b : Bool)
deriving DecidableEq, Repr

/-- An attribute registry: a Python dict of string keys, insertion ordered. -/
abbrev Attrs := List (String × AVal)

/-- Python dict assignment d[k] = v: replace the binding in place if the key
exists, otherwise append it. -/
def assocSet {β : Type} (l : List (String × β)) (k : String) (v : β) :
    List (String × β) :=
  match l with
  | [] => [(k, v)]
  | (k', v') :: t => if k' = k then (k, v) :: t else (k', v') :: assocSet t k v

/-- Python dict lookup with a default value. -/
def lookupD {β : Type} (l : List (String × β)) (k : String) (d : β) : β :=
  match l with
  | [] => d
  | (k', v') :: t => if k' = k then v' else lookupD t k d

/-- Python dict equality: the same keys are bound to the same values,
irrespective of insertion order.  Mirrors attributes.__eq__ in
Edge.__eq__. -/
def attrsEqB (a b : Attrs) : Bool :=
  ((a.map Prod.fst) ++ (b.map Prod.fst)).all
    (fun k => lookupD (a.map (fun p => (p.1, some p.2))) k none
           == lookupD (b.map (fun p => (p.1, some p.2))) k none)

/-- An Edge object at graph-state level: the Python Edge stores a weight, an
attribute dict and its two endpoint Node objects; endpoints are recorded by
their unique names. -/
structure PEdge where
  src : String
  dst : String
  weight : Int
  attrs : Attrs
deriving DecidableEq, Repr

/-- A Node object at graph-state level: name and attribute dict; the edge
sets are recovered from the graph's edge list. -/
structure PNode where
  name : String
  attrs : Attrs
deriving DecidableEq, Repr

/-- A BipartiteGraph object: left nodeset, right nodeset and the edges wired
into the nodes, in insertion order. -/
structure BGraph where
  left : List PNode
  right : List PNode
  edges : List PEdge
deriving DecidableEq, Repr

/-- Edge.__eq__: weight, attribute dict and the two endpoint nodes (which
compare by name) must agree. -/
def edgeEqB (e f : PEdge) : Bool :=
  e.weight == f.weight && attrsEqB e.attrs f.attrs && e.src == f.src &&
    e.dst == f.dst

/-- Names of a list of nodes (get_left_node_names / get_right_node_names). -/
def namesOf (l : List PNode) : List String := l.map PNode.name

/-- Membership of a node name in a nodeset; Python node-in-set membership
reduces to this because Node.__eq__ compares names. -/
def memName (n : String) (l : List PNode) : Bool := (namesOf l).contains n

/-- node.get_outgoing_edges(): the edges wired out of the node of this name. -/
def outgoingOf (G : BGraph) (n : String) : List PEdge :=
  G.edges.filter (fun e => e.src == n)

/-- node.get_incoming_edges(): the edges wired into the node of this name. -/
def incomingOf (G : BGraph) (n : String) : List PEdge :=
  G.edges.filter (fun e => e.dst == n)

/-- BipartiteGraph.get_edges(): outgoing then incoming edges of the left
nodeset's nodes. -/
def getEdges (G : BGraph) : List PEdge :=
  (G.left.flatMap (fun n => outgoingOf G n.name)) ++
    (G.left.flatMap (fun n => incomingOf G n.name))

/-- Python set insertion of a node: Node equality is name-based, so a node
whose name is already present is not inserted again. -/
def insertNode (l : List PNode) (n : PNode) : List PNode :=
  if memName n.name l then l else l ++ [n]

/-- Python set insertion of an edge into the flat edge list: Edge equality is
structural (edgeEqB), so an edge equal to a present one is not inserted. -/
def insertEdge (l : List PEdge) (e : PEdge) : List PEdge :=
  if l.any (fun f => edgeEqB f e) then l else l ++ [e]

/-- Deduplicate a list with respect to a boolean equality, keeping first
occurrences — an element survives exactly when it is inequivalent to every
earlier element, which for an equivalence such as Edge.__eq__ is the
contents of a Python set built by successive insertions. -/
def dedupBy {α : Type} (eq : α → α → Bool) : List α → List α
  | [] => []
  | a :: t => a :: ((dedupBy eq t).filter (fun b => !eq a b))

/-- BipartiteGraph.__is_bipartite: no name occurs on both sides and every
edge wired into a node crosses sides in its stored direction. -/
def is_bipartite (G : BGraph) : Bool :=
  ((namesOf G.left).filter (fun n => memName n G.right)).isEmpty &&
  G.left.all (fun nd =>
    (outgoingOf G nd.name).all
      (fun e => !(memName e.src G.right || memName e.dst G.left)) &&
    (incomingOf G nd.name).all
      (fun e => !(memName e.src G.left || memName e.dst G.right))) &&
  G.right.all (fun nd =>
    (incomingOf G nd.name).all
      (fun e => !(memName e.src G.right || memName e.dst G.left)) &&
    (outgoingOf G nd.name).all
      (fun e => !(memName e.src G.left || memName e.dst G.right)))

/-- BipartiteGraph.__has_conflicting_node_names: the number of distinct node
names differs from the total number of nodes. -/
def has_conflicting_node_names (G : BGraph) : Bool :=
  ((namesOf G.left ++ namesOf G.right).dedup).length !=
    G.left.length + G.right.length

/-- BipartiteGraph.__has_multiple_edges: two edges of the graph share the
ordered (source name, terminal name) pair. -/
def has_multiple_edges (G : BGraph) : Bool :=
  ((getEdges G).map (fun e => (e.src, e.dst))).length !=
    ((getEdges G).map (fun e => (e.src, e.dst))).dedup.length

/-- BipartiteGraph.__check_validity: raises in this order. -/
def check_validity (G : BGraph) : Except String Unit := do
  if !is_bipartite G then throw "Error: Graph is not bipartite"
  if has_conflicting_node_names G then
    throw "Error: Nodes have conflicting names"
  if has_multiple_edges G then throw "Error: Multiple edges exist"
  return ()

/-- Whether an Except value is a normal return. -/
def okB {ε α : Type} : Except ε α → Bool
  | .ok _ => true
  | .error _ => false

/-- A graph state the library accepts: the validity check passes and the
state is one an actual Python object graph can denote (every edge endpoint
is a node of the graph, and the stored edge list has no duplicate ordered
pairs, since both endpoint edge sets deduplicate structurally equal
edges). -/
def validG (G : BGraph) : Prop :=
  okB (check_validity G) = true ∧
  (∀ e ∈ G.edges, memName e.src (G.left ++ G.right) = true ∧
    memName e.dst (G.left ++ G.right) = true) ∧
  (G.edges.map (fun e => (e.src, e.dst))).Nodup ∧
  (namesOf (G.left ++ G.right)).Nodup

instance (G : BGraph) : Decidable (validG G) := by
  unfold validG; infer_instance

/-- BipartiteGraph.add_edge: auto-insert missing endpoints (the source is
checked against the left names only, the terminal against the right names
only), wire the edge into both endpoints, then re-run the validity check;
the wiring is a Python set insertion, so an edge structurally equal to a
present one leaves the edge sets unchanged. -/
def add_edge (G : BGraph) (weight : Int) (attrs : Attrs)
    (source terminal : PNode) : Except String BGraph :=
  let G1 : BGraph :=
    if (namesOf G.left).contains source.name then G
    else { G with left := insertNode G.left source }
  let G2 : BGraph :=
    if (namesOf G1.right).contains terminal.name then G1
    else { G1 with right := insertNode G1.right terminal }
  let e : PEdge := ⟨source.name, terminal.name, weight, attrs⟩
  let G3 : BGraph := { G2 with edges := insertEdge G2.edges e }
  match check_validity G3 with
  | .error msg => .error msg
  | .ok _ => .ok G3

/-- GraphProcessing.produce_duplicate_disconnected_node at state level: keep
name and attributes, drop the edge wiring. -/
def produce_duplicate_disconnected_node (n : PNode) : PNode :=
  ⟨n.name, n.attrs⟩

/-- BipartiteGraph.extract_edge_induced_subgraph: disconnected copies of all
nodes, plus a copy of every edge satisfying the predicate, collected by
walking each node's outgoing edges (nodes in left-then-right order).
Doubles as the library's deep copy when the predicate is always true. -/
def extract_edge_induced_subgraph (G : BGraph) (pred : PEdge → Bool) :
    BGraph :=
  { left := G.left.map produce_duplicate_disconnected_node
    right := G.right.map produce_duplicate_disconnected_node
    edges :=
      (G.left ++ G.right).flatMap
        (fun nd => ((outgoingOf G nd.name).filter pred).map
          (fun e => ⟨e.src, e.dst, e.weight, e.attrs⟩)) }

/-- BipartiteGraph.__deepcopy__. -/
def deepcopyG (G : BGraph) : BGraph :=
  extract_edge_induced_subgraph G (fun _ => true)

/-- The node's incident edge count used by is_perfect:
len(outgoing.union(incoming)), a Python set union deduplicating with
Edge.__eq__. -/
def incidentCount (G : BGraph) (n : String) : Nat :=
  (dedupBy edgeEqB (outgoingOf G n ++ incomingOf G n)).length

/-- AssignmentProblem.is_perfect (same code in KuhnMunkres.is_perfect):
extract the subgraph induced by the matched pairs and test that the number
of nodes with exactly one incident edge equals the number of nodes. -/
def is_perfect (G : BGraph) (matching : List (String × String)) : Bool :=
  let Gp := extract_edge_induced_subgraph G
    (fun e => matching.contains (e.src, e.dst))
  ((Gp.left ++ Gp.right).countP
      (fun nd => incidentCount Gp nd.name == 1)) ==
    (Gp.left ++ Gp.right).length

/-- AssignmentProblem.postprocess_augmenting_path: each pair is re-oriented
according to the parity of list(path).index(pair), the index of the pair's
first occurrence in the path. -/
def postprocess_augmenting_path (path : List (String × String)) :
    List (String × String) :=
  path.map (fun p =>
    if (path.findIdx (fun q => q == p)) % 2 == 1 then (p.2, p.1) else p)

/-- The re-orientation the specification describes: swap the pair at every
odd position, keep every even position (stated from the spec's words, for
comparison with the source's postprocess_augmenting_path). -/
def spec_swap_odd (path : List (String × String)) :
    List (String × String) :=
  path.mapIdx (fun i p => if i % 2 == 1 then (p.2, p.1) else p)

/-! ### Node string representation and equality (Node.py) -/

/-- Python repr of an attribute value as it appears inside str(dict). -/
def aValPy : AVal → String
  | .ib z => toString z
  | .bb true => "True"
  | .bb false => "False"

/-- Python str of an attribute dict, entries in insertion order. -/
def attrsPy (a : Attrs) : String :=
  "\x7b" ++
    String.intercalate ", " (a.map (fun p => "'" ++ p.1 ++ "': " ++ aValPy p.2))
    ++ "\x7d"

/-- Node.__str__ for a node whose edge sets are empty: the format string of
the source with the two edge joins empty.  (For a node with a nonempty edge
set, Node.__str__ recurses into Edge.__str__, which recurses back into the
endpoint nodes' __str__, so the Python call never returns; the embedding
only needs the terminating, disconnected case.) -/
def node_str_disconnected (n : PNode) : String :=
  "Node Name: " ++ n.name ++ "\n" ++
  "Node Attributes: " ++ attrsPy n.attrs ++ "\n" ++
  "Outgoing Edges: " ++ "\n" ++
  "Incoming Edges: " ++ "\n"

/-- Node.__eq__: name equality only. -/
def node_eq (n m : PNode) : Bool := n.name == m.name

/-! ### Dijkstra (Dijkstra.py) -/

/-- Python float comparison with infinity encoded as none: every finite
value is below infinity and infinity is not below anything. -/
def optLt : Option Int → Option Int → Bool
  | some a, some b => a < b
  | some _, none => true
  | none, _ => false

/-- Addition of an edge weight to a possibly-infinite distance. -/
def optAddW : Option Int → Int → Option Int
  | none, _ => none
  | some a, w => some (a + w)

/-- A graph in adjacency-list ("dictionary") form: node name to neighbor
name to weight, insertion ordered. -/
abbrev WGraph := List (String × List (String × Int))

abbrev DistMap := List (String × Option Int)

abbrev PrevMap := List (String × Option String)

/-- Dijkstra.__determine_min_dist: current_node starts at Q[0] and
current_dist starts at infinity; the loop replaces current_node whenever
dist[node] < current_dist, but current_dist itself is never updated, so the
returned node is the last node of Q with a finite distance (or Q[0] when
none is finite), not the nearest node. -/
def determine_min_dist (Q : List String) (dist : DistMap) : Option String :=
  match Q with
  | [] => none
  | q :: _ =>
    some (Q.foldl
      (fun cur node => if optLt (lookupD dist node none) none then node
        else cur) q)

/-- The relaxation of all neighbors of the removed node (the inner for-loop
of Dijkstra.one_to_many). -/
def relax (current : String) (nbrs : List (String × Int))
    (dp : DistMap × PrevMap) : DistMap × PrevMap :=
  nbrs.foldl
    (fun dp nb =>
      let nd := optAddW (lookupD dp.1 current none) nb.2
      if optLt nd (lookupD dp.1 nb.1 none) then
        (assocSet dp.1 nb.1 nd, assocSet dp.2 nb.1 (some current))
      else dp)
    dp

/-- The while-loop of Dijkstra.one_to_many, with explicit fuel; each
iteration removes the selected node from Q and relaxes its neighbors. -/
def dijkstra_loop (g : WGraph) :
    Nat → List String → DistMap × PrevMap → DistMap × PrevMap
  | 0, _, dp => dp
  | fuel + 1, Q, dp =>
    if Q.isEmpty then dp
    else
      match determine_min_dist Q dp.1 with
      | none => dp
      | some cur =>
        dijkstra_loop g fuel (Q.erase cur) (relax cur (lookupD g cur []) dp)

/-- Dijkstra.one_to_many: initialize every node's distance to infinity and
predecessor to None, set the source distance to 0, then run the loop until
the queue empties (the queue length is exactly enough fuel). -/
def one_to_many (g : WGraph) (source : String) : DistMap × PrevMap :=
  let keys := g.map Prod.fst
  dijkstra_loop g keys.length keys
    (assocSet (keys.map (fun n => (n, (none : Option Int)))) source (some 0),
     keys.map (fun n => (n, (none : Option String))))

/-- Option-valued dict lookup. -/
def lookupOpt {β : Type} (l : List (String × β)) (k : String) : Option β :=
  (l.find? (fun p => p.1 == k)).map Prod.snd

/-- The total weight of a node sequence along edges of the adjacency
mapping, none if some consecutive pair is not an edge. -/
def path_weight (g : WGraph) : List String → Option Int
  | [] => some 0
  | [_] => some 0
  | a :: b :: t =>
    match lookupOpt (lookupD g a []) b with
    | none => none
    | some w =>
      match path_weight g (b :: t) with
      | none => none
      | some r => some (w + r)

/-- The concrete adjacency mapping on which the selection bug shows: the
shortest path from s to t is s-v-u-t of weight 3. -/
def dijkstraBugGraph : WGraph :=
  [("s", [("u", 10), ("v", 1)]), ("v", [("u", 1)]), ("u", [("t", 1)]),
   ("t", [])]

/-! ### Theorems for C8, C9, C3 -/

/-- In a duplicate-free list, the index of the first occurrence of the i-th
element is i. -/
theorem findIdx_beq_getElem_of_nodup {α : Type} [BEq α] [LawfulBEq α]
    (l : List α) (hl : l.Nodup) (i : Nat) (h : i < l.length) :
    l.findIdx (fun q => q == l[i]) = i := by
  induction l generalizing i with
  | nil => simp at h
  | cons a t ih =>
    rcases i with _ | j
    · simp [List.findIdx_cons]
    · have hj : j < t.length := by simpa using h
      have ha : a ∉ t := (List.nodup_cons.mp hl).1
      have hne : (a == t[j]) = false := by
        simp only [beq_eq_false_iff_ne, ne_eq]
        intro hEq; exact ha (hEq ▸ t.getElem_mem hj)
      simp only [List.getElem_cons_succ, List.findIdx_cons, hne, cond_false]
      rw [ih (List.nodup_cons.mp hl).2 j hj]

/-- C8 (amended): on a path whose pairs are pairwise distinct,
postprocess_augmenting_path swaps exactly the odd-indexed pairs and keeps
the even-indexed pairs; on paths with a repeated pair the source instead
keys the decision on the index of the pair's first occurrence (see the
counterexample). -/
theorem postprocess_swaps_odd_positions (l : List (String × String))
    (hl : l.Nodup) : postprocess_augmenting_path l = spec_swap_odd l := by
  unfold postprocess_augmenting_path spec_swap_odd
  apply List.ext_get (by simp)
  intro i h1 h2
  have hi : i < l.length := by simpa using h1
  rw [List.get_map, List.get_mapIdx]
  simp only [List.get_eq_getElem]
  rw [findIdx_beq_getElem_of_nodup l hl i hi]

/-- Witness for C8's theorem at a concrete duplicate-free path. -/
theorem postprocess_swaps_odd_positions_witness :
    ([("a", "b"), ("c", "d"), ("e", "f")] : List (String × String)).Nodup ∧
    postprocess_augmenting_path [("a", "b"), ("c", "d"), ("e", "f")] =
      spec_swap_odd [("a", "b"), ("c", "d"), ("e", "f")] :=
  ⟨by decide, postprocess_swaps_odd_positions _ (by decide)⟩

/-- C8 counterexample: on the two-element path repeating one pair, the
source keeps both pairs unchanged (both have first-occurrence index 0),
while the claim demands the odd-position pair be swapped. -/
theorem postprocess_counterexample :
    postprocess_augmenting_path [("a", "b"), ("a", "b")] ≠
      spec_swap_odd [("a", "b"), ("a", "b")] := by decide

/-- C9: Node equality is name-based as claimed, but the hash input is the
full string representation: the two nodes named A that differ only in
their attribute dict compare equal under Node.__eq__ while their
str(self) values — exactly what Node.__hash__ feeds to hash() — differ,
so equal names do not guarantee equal hash codes. -/
theorem node_hash_input_not_name_based :
    node_eq ⟨"A", []⟩ ⟨"A", [("Matched", AVal.bb true)]⟩ = true ∧
    node_str_disconnected ⟨"A", []⟩ ≠
      node_str_disconnected ⟨"A", [("Matched", AVal.bb true)]⟩ ∧
    (∀ n m : PNode, node_eq n m = true ↔ n.name = m.name) := by
  refine ⟨by decide, by decide, ?_⟩
  intro n m
  simp [node_eq]

/-- C3: on dijkstraBugGraph the code returns distance 11 for node t even
though the path s-v-u-t has weight 3; and determine_min_dist returns the
last finite-distance node of the queue (b, at distance 5) rather than the
nearest node (a, at distance 1). -/
theorem dijkstra_returns_wrong_distance :
    lookupD (one_to_many dijkstraBugGraph "s").1 "t" none = some 11 ∧
    path_weight dijkstraBugGraph ["s", "v", "u", "t"] = some 3 ∧
    determine_min_dist ["a", "b"] [("a", some 1), ("b", some 5)] =
      some "b" := by decide

/-! ### Theorems for C4 (is_perfect) -/

/-- The property C4 states for is_perfect: cardinality agreement and every
node name in exactly one pair (stated from the spec's words, for
comparison with the source's is_perfect). -/
def claim_perfect (G : BGraph) (m : List (String × String)) : Prop :=
  m.length = G.left.length ∧ m.length = G.right.length ∧
  ∀ n ∈ namesOf (G.left ++ G.right),
    m.countP (fun p => p.1 == n || p.2 == n) = 1

instance (G : BGraph) (m : List (String × String)) :
    Decidable (claim_perfect G m) := by
  unfold claim_perfect; infer_instance


/-- dedupBy removes nothing from a list whose members are pairwise
inequivalent. -/
theorem dedupBy_eq_self {α : Type} (eq : α → α → Bool) (l : List α)
    (h : l.Pairwise (fun a b => eq a b = false)) : dedupBy eq l = l := by
  induction l with
  | nil => rfl
  | cons a t ih =>
    rw [dedupBy]
    have hall : ∀ b ∈ t, eq a b = false := fun b hb =>
      (List.pairwise_cons.mp h).1 b hb
    rw [ih (List.pairwise_cons.mp h).2]
    have : t.filter (fun b => !eq a b) = t := by
      apply List.filter_eq_self.mpr
      intro b hb; simp [hall b hb]
    rw [this]


/-- flatMap respects pointwise-equal functions. -/
theorem flatMap_congr {α β : Type} (l : List α) (f g : α → List β)
    (h : ∀ a ∈ l, f a = g a) : l.flatMap f = l.flatMap g := by
  induction l with
  | nil => rfl
  | cons a t ih =>
    simp only [List.flatMap_cons]
    rw [h a (by simp), ih (fun b hb => h b (List.mem_cons_of_mem a hb))]

/-- Grouping a list of edges by source name over a duplicate-free list of
keys covering all source names is a permutation of the list. -/
theorem flatMap_filter_src_perm (keys : List String) (hk : keys.Nodup)
    (l : List PEdge) (hl : ∀ e ∈ l, e.src ∈ keys) :
    (keys.flatMap (fun nm => l.filter (fun e => e.src == nm))).Perm l := by
  induction keys generalizing l with
  | nil =>
    cases l with
    | nil => simp
    | cons e t => exact absurd (hl e (by simp)) (by simp)
  | cons k ks ih =>
    have hk' : k ∉ ks := (List.nodup_cons.mp hk).1
    simp only [List.flatMap_cons]
    have step : ks.flatMap (fun nm => l.filter (fun e => e.src == nm)) =
        ks.flatMap (fun nm => (l.filter (fun e => !(e.src == k))).filter
          (fun e => e.src == nm)) := by
      apply flatMap_congr
      intro nm hnm
      rw [List.filter_filter]
      refine (List.filter_congr ?_).symm
      intro e _
      cases hsrc : (e.src == nm) with
      | false => simp [hsrc]
      | true =>
        have hnmeq : e.src = nm := by simpa using hsrc
        have hkne : (e.src == k) = false := by
          simp only [beq_eq_false_iff_ne, ne_eq]
          intro hek
          have hknm : k = nm := by rw [← hek, hnmeq]
          exact hk' (hknm ▸ hnm)
        simp [hsrc, hkne]
    rw [step]
    have hside : ∀ e ∈ l.filter (fun e => !(e.src == k)), e.src ∈ ks := by
      intro e he
      have h1 := List.of_mem_filter he
      have h2 := hl e (List.mem_of_mem_filter he)
      rcases List.mem_cons.mp h2 with h | h
      · exact absurd (by simpa using h) (by simpa using h1)
      · exact h
    exact (List.Perm.append_left _
      (ih (List.nodup_cons.mp hk).2 _ hside)).trans
      (List.filter_append_perm _ l)

/-- Splitting check_validity into its three tests. -/
theorem check_validity_ok_iff (G : BGraph) :
    okB (check_validity G) = true ↔
      is_bipartite G = true ∧ has_conflicting_node_names G = false ∧
        has_multiple_edges G = false := by
  unfold check_validity
  cases h1 : is_bipartite G <;>
    cases h2 : has_conflicting_node_names G <;>
      cases h3 : has_multiple_edges G <;>
        simp [h1, h2, h3, okB, pure, Except.pure, throw, throwThe,
          MonadExceptOf.throw, bind, Except.bind]

/-- memName is membership in the name list. -/
theorem memName_iff (n : String) (l : List PNode) :
    memName n l = true ↔ n ∈ namesOf l := by
  simp [memName]

/-- Under validity the two sides carry disjoint name lists. -/
theorem valid_sides_disjoint (G : BGraph) (hG : validG G) :
    ∀ n, n ∈ namesOf G.left → n ∈ namesOf G.right → False := by
  intro n hL hR
  have h := hG.2.2.2
  have : (namesOf G.left ++ namesOf G.right).Nodup := by
    simpa [namesOf] using h
  exact (List.disjoint_of_nodup_append this) hL hR

/-- Under validity every edge joins the two sides: its source is on one
side and its terminal on the other. -/
theorem valid_edge_sides (G : BGraph) (hG : validG G) :
    ∀ e ∈ G.edges,
      (e.src ∈ namesOf G.left ∧ e.dst ∈ namesOf G.right) ∨
      (e.src ∈ namesOf G.right ∧ e.dst ∈ namesOf G.left) := by
  intro e he
  obtain ⟨hok, hmem, _, _⟩ := hG
  have hbip := ((check_validity_ok_iff G).mp hok).1
  rw [is_bipartite] at hbip
  simp only [Bool.and_eq_true, List.all_eq_true] at hbip
  obtain ⟨⟨_, hleftAll⟩, hrightAll⟩ := hbip
  have hsrc : e.src ∈ namesOf G.left ∨ e.src ∈ namesOf G.right := by
    have := (hmem e he).1
    rw [memName_iff] at this
    simpa [namesOf] using this
  have hdst : e.dst ∈ namesOf G.left ∨ e.dst ∈ namesOf G.right := by
    have := (hmem e he).2
    rw [memName_iff] at this
    simpa [namesOf] using this
  rcases hsrc with hs | hs
  · obtain ⟨nd, hnd, hname⟩ := List.mem_map.mp hs
    have heo : e ∈ outgoingOf G nd.name := by
      simp only [outgoingOf, List.mem_filter]
      exact ⟨he, by simp [hname]⟩
    have := (hleftAll nd hnd).1 e heo
    simp only [Bool.not_eq_true', Bool.or_eq_false_iff] at this
    obtain ⟨_, hdl⟩ := this
    have hdl' : e.dst ∉ namesOf G.left := by
      intro hx
      rw [← memName_iff] at hx
      simp [hx] at hdl
    left
    refine ⟨hs, ?_⟩
    rcases hdst with h | h
    · exact absurd h hdl'
    · exact h
  · obtain ⟨nd, hnd, hname⟩ := List.mem_map.mp hs
    have heo : e ∈ outgoingOf G nd.name := by
      simp only [outgoingOf, List.mem_filter]
      exact ⟨he, by simp [hname]⟩
    have := (hrightAll nd hnd).2 e heo
    simp only [Bool.not_eq_true', Bool.or_eq_false_iff] at this
    obtain ⟨_, hdr⟩ := this
    have hdr' : e.dst ∉ namesOf G.right := by
      intro hx
      rw [← memName_iff] at hx
      simp [hx] at hdr
    right
    refine ⟨hs, ?_⟩
    rcases hdst with h | h
    · exact h
    · exact absurd h hdr'

/-- countP of a disjunction of predicates that never hold together. -/
theorem countP_or_of_not_both {α : Type} (p q : α → Bool) (l : List α)
    (h : ∀ x ∈ l, ¬(p x = true ∧ q x = true)) :
    l.countP (fun x => p x || q x) = l.countP p + l.countP q := by
  induction l with
  | nil => simp
  | cons a t ih =>
    have ht : ∀ x ∈ t, ¬(p x = true ∧ q x = true) := fun x hx =>
      h x (List.mem_cons_of_mem a hx)
    have ha := h a (List.mem_cons_self a t)
    rw [List.countP_cons, List.countP_cons, List.countP_cons, ih ht]
    cases hp : p a
    · cases hq : q a <;> simp [hp, hq] <;> omega
    · have hq : q a = false := by
        cases hq : q a
        · rfl
        · exact absurd ⟨hp, hq⟩ ha
      simp [hp, hq]
      omega

/-- countP of two predicates of which exactly one holds at every member. -/
theorem countP_add_countP_of_exactly_one {α : Type} (p q : α → Bool)
    (l : List α)
    (h : ∀ x ∈ l, (p x = true ∧ q x = false) ∨ (p x = false ∧ q x = true)) :
    l.countP p + l.countP q = l.length := by
  induction l with
  | nil => simp
  | cons a t ih =>
    have ht : ∀ x ∈ t,
        (p x = true ∧ q x = false) ∨ (p x = false ∧ q x = true) :=
      fun x hx => h x (List.mem_cons_of_mem a hx)
    rw [List.countP_cons, List.countP_cons, List.length_cons]
    have iht := ih ht
    rcases h a (List.mem_cons_self a t) with ⟨hp, hq⟩ | ⟨hp, hq⟩ <;>
      simp [hp, hq] <;> omega

/-- The node lists of an extracted subgraph carry the original names. -/
theorem extract_namesOf_left (G : BGraph) (pred : PEdge → Bool) :
    namesOf (extract_edge_induced_subgraph G pred).left = namesOf G.left := by
  unfold extract_edge_induced_subgraph namesOf produce_duplicate_disconnected_node
  simp [List.map_map]

theorem extract_namesOf_right (G : BGraph) (pred : PEdge → Bool) :
    namesOf (extract_edge_induced_subgraph G pred).right = namesOf G.right := by
  unfold extract_edge_induced_subgraph namesOf produce_duplicate_disconnected_node
  simp [List.map_map]

/-- Unfolding equation for the extracted edge list. -/
theorem extract_edges_def (G : BGraph) (pred : PEdge → Bool) :
    (extract_edge_induced_subgraph G pred).edges =
      (G.left ++ G.right).flatMap
        (fun nd => ((outgoingOf G nd.name).filter pred).map
          (fun e => (⟨e.src, e.dst, e.weight, e.attrs⟩ : PEdge))) := rfl

/-- Under validity, the edge list of an extracted subgraph is a permutation
of the filtered edge list of the original graph. -/
theorem extract_edges_perm (G : BGraph) (hG : validG G) (pred : PEdge → Bool) :
    (extract_edge_induced_subgraph G pred).edges.Perm
      (G.edges.filter pred) := by
  rw [extract_edges_def]
  have hmapid :
      (fun e : PEdge => (⟨e.src, e.dst, e.weight, e.attrs⟩ : PEdge)) =
        fun e => e := rfl
  rw [show (fun nd : PNode => ((outgoingOf G nd.name).filter pred).map
        (fun e => (⟨e.src, e.dst, e.weight, e.attrs⟩ : PEdge))) =
      (fun nd : PNode => (outgoingOf G nd.name).filter pred) by
    funext nd; rw [hmapid]; exact List.map_id _]
  have hbody : ∀ nm : String, (outgoingOf G nm).filter pred =
      (G.edges.filter pred).filter (fun e => e.src == nm) := by
    intro nm
    unfold outgoingOf
    rw [List.filter_filter, List.filter_filter]
    apply List.filter_congr
    intro e _
    exact Bool.and_comm _ _
  have hrw : (G.left ++ G.right).flatMap
      (fun nd => (outgoingOf G nd.name).filter pred) =
      (namesOf (G.left ++ G.right)).flatMap
        (fun nm => (G.edges.filter pred).filter (fun e => e.src == nm)) := by
    unfold namesOf
    rw [List.flatMap_map]
    exact flatMap_congr _ _ _ (fun nd _ => hbody nd.name)
  rw [hrw]
  apply flatMap_filter_src_perm
  · exact hG.2.2.2
  · intro e he
    have heG : e ∈ G.edges := List.mem_of_mem_filter he
    have := (hG.2.1 e heG).1
    rw [memName_iff] at this
    simpa [namesOf] using this

/-- Structurally equal edges share their endpoint name pair. -/
theorem edgeEqB_pair {a b : PEdge} (h : edgeEqB a b = true) :
    a.src = b.src ∧ a.dst = b.dst := by
  simp only [edgeEqB, Bool.and_eq_true, beq_iff_eq] at h
  exact ⟨h.1.2, h.2⟩

/-- In the subgraph induced by a matching, a node's incident edge count is
the number of matched edges leaving it plus the number entering it. -/
theorem incidentCount_extract (G : BGraph) (hG : validG G)
    (m : List (String × String)) (n : String) :
    incidentCount (extract_edge_induced_subgraph G
      (fun e => m.contains (e.src, e.dst))) n =
    (G.edges.filter (fun e => m.contains (e.src, e.dst))).countP
        (fun e => e.src == n) +
      (G.edges.filter (fun e => m.contains (e.src, e.dst))).countP
        (fun e => e.dst == n) := by
  set pred := fun e : PEdge => m.contains (e.src, e.dst) with hpred
  set Gp := extract_edge_induced_subgraph G pred with hGp
  have hperm : Gp.edges.Perm (G.edges.filter pred) :=
    extract_edges_perm G hG pred
  have hmedpairs : ((G.edges.filter pred).map
      (fun e => (e.src, e.dst))).Nodup := by
    exact List.Nodup.sublist ((G.edges.filter_sublist).map _) hG.2.2.1
  have hpairsGp : (Gp.edges.map (fun e => (e.src, e.dst))).Nodup :=
    ((hperm.map _).nodup_iff).mpr hmedpairs
  have pwGp : Gp.edges.Pairwise
      (fun a b => ((a.src, a.dst) : String × String) ≠ (b.src, b.dst)) :=
    List.pairwise_map.mp hpairsGp
  have pwGp' : Gp.edges.Pairwise (fun a b => edgeEqB a b = false) := by
    refine pwGp.imp ?_
    intro a b hne
    cases heq : edgeEqB a b
    · rfl
    · obtain ⟨h1, h2⟩ := edgeEqB_pair heq
      exact absurd (by rw [h1, h2]) hne
  have hcross : ∀ a ∈ outgoingOf Gp n, ∀ b ∈ incomingOf Gp n,
      edgeEqB a b = false := by
    intro a ha b hb
    cases heq : edgeEqB a b
    · rfl
    · exfalso
      have hasrc : a.src = n := by
        have := List.of_mem_filter ha
        simpa using this
      have hbdst : b.dst = n := by
        have := List.of_mem_filter hb
        simpa using this
      obtain ⟨_, h2⟩ := edgeEqB_pair heq
      have hadst : a.dst = n := by rw [h2, hbdst]
      have haG : a ∈ G.edges := by
        have : a ∈ Gp.edges := List.mem_of_mem_filter ha
        exact List.mem_of_mem_filter (hperm.mem_iff.mp this)
      rcases valid_edge_sides G hG a haG with ⟨hs, hd⟩ | ⟨hs, hd⟩
      · exact valid_sides_disjoint G hG n (hasrc ▸ hs) (hadst ▸ hd)
      · exact valid_sides_disjoint G hG n (hadst ▸ hd) (hasrc ▸ hs)
  have hpw : (outgoingOf Gp n ++ incomingOf Gp n).Pairwise
      (fun a b => edgeEqB a b = false) := by
    rw [List.pairwise_append]
    refine ⟨List.Pairwise.sublist (List.filter_sublist _) pwGp',
      List.Pairwise.sublist (List.filter_sublist _) pwGp', ?_⟩
    intro a ha b hb
    exact hcross a ha b hb
  have hded : incidentCount Gp n =
      (outgoingOf Gp n).length + (incomingOf Gp n).length := by
    unfold incidentCount
    rw [dedupBy_eq_self _ _ hpw, List.length_append]
  rw [hded]
  unfold outgoingOf incomingOf
  rw [← List.countP_eq_length_filter, ← List.countP_eq_length_filter,
    hperm.countP_eq, hperm.countP_eq]

/-- When every pair of the (duplicate-free) matching is the endpoint pair
of an edge, the endpoint pairs of the matched edges are a permutation of
the matching. -/
theorem matched_pairs_perm (G : BGraph) (hG : validG G)
    (m : List (String × String)) (hm : m.Nodup)
    (hedge : ∀ p ∈ m, ∃ e ∈ G.edges, e.src = p.1 ∧ e.dst = p.2) :
    ((G.edges.filter (fun e => m.contains (e.src, e.dst))).map
      (fun e => (e.src, e.dst))).Perm m := by
  have hnd1 : ((G.edges.filter (fun e => m.contains (e.src, e.dst))).map
      (fun e => (e.src, e.dst))).Nodup :=
    List.Nodup.sublist ((G.edges.filter_sublist).map _) hG.2.2.1
  refine (List.perm_ext_iff_of_nodup hnd1 hm).mpr ?_
  intro p
  constructor
  · intro hp
    obtain ⟨e, he, hpe⟩ := List.mem_map.mp hp
    have := List.of_mem_filter he
    rw [← hpe]
    simpa using this
  · intro hp
    obtain ⟨e, heG, h1, h2⟩ := hedge p hp
    refine List.mem_map.mpr ⟨e, List.mem_filter.mpr ⟨heG, ?_⟩, ?_⟩
    · have hpair : (e.src, e.dst) = p := by rw [h1, h2]
      simp [hpair, hp]
    · rw [h1, h2]

/-- A list does not contain an element exactly when the element is not a
member. -/
theorem contains_false (l : List String) (x : String) :
    l.contains x = false ↔ ¬ x ∈ l := by
  rw [← Bool.not_eq_true]; simp

/-- namesOf distributes over append. -/
theorem namesOf_append (a b : List PNode) :
    namesOf (a ++ b) = namesOf a ++ namesOf b := List.map_append _ _ _

/-- Summing the per-key appearance counts over duplicate-free keys, when
each key appears exactly once, counts the pairs with a component among the
keys. -/
theorem countP_keys_split (m : List (String × String)) (keys : List String)
    (hk : keys.Nodup)
    (h1 : ∀ n ∈ keys, m.countP (fun p => p.1 == n) +
      m.countP (fun p => p.2 == n) = 1) :
    m.countP (fun p => keys.contains p.1) +
      m.countP (fun p => keys.contains p.2) = keys.length := by
  induction keys with
  | nil => simp
  | cons k ks ih =>
    have hk' : k ∉ ks := (List.nodup_cons.mp hk).1
    have e1 : m.countP (fun p => (k :: ks).contains p.1) =
        m.countP (fun p => p.1 == k) +
          m.countP (fun p => ks.contains p.1) := by
      have hc : m.countP (fun p => (k :: ks).contains p.1) =
          m.countP (fun p => (p.1 == k) || ks.contains p.1) := by
        apply List.countP_congr; intro p _; simp
      rw [hc]
      apply countP_or_of_not_both
      intro p _ hcon
      apply hk'
      have ha : p.1 = k := by simpa using hcon.1
      have hb : p.1 ∈ ks := by simpa using hcon.2
      rwa [ha] at hb
    have e2 : m.countP (fun p => (k :: ks).contains p.2) =
        m.countP (fun p => p.2 == k) +
          m.countP (fun p => ks.contains p.2) := by
      have hc : m.countP (fun p => (k :: ks).contains p.2) =
          m.countP (fun p => (p.2 == k) || ks.contains p.2) := by
        apply List.countP_congr; intro p _; simp
      rw [hc]
      apply countP_or_of_not_both
      intro p _ hcon
      apply hk'
      have ha : p.2 = k := by simpa using hcon.1
      have hb : p.2 ∈ ks := by simpa using hcon.2
      rwa [ha] at hb
    have iht := ih (List.nodup_cons.mp hk).2
      (fun n hn => h1 n (List.mem_cons_of_mem k hn))
    have hk1 := h1 k (List.mem_cons_self k ks)
    rw [e1, e2, List.length_cons]
    omega


/-! ### Theorems for C6 (add_edge) -/

/-- The bipartiteness test, characterized edge-wise. -/
theorem is_bipartite_iff (G : BGraph) :
    is_bipartite G = true ↔
      ((∀ n ∈ namesOf G.left, n ∉ namesOf G.right) ∧
       ∀ e ∈ G.edges,
        (e.src ∈ namesOf G.left →
          ¬(e.src ∈ namesOf G.right ∨ e.dst ∈ namesOf G.left)) ∧
        (e.dst ∈ namesOf G.left →
          ¬(e.src ∈ namesOf G.left ∨ e.dst ∈ namesOf G.right)) ∧
        (e.dst ∈ namesOf G.right →
          ¬(e.src ∈ namesOf G.right ∨ e.dst ∈ namesOf G.left)) ∧
        (e.src ∈ namesOf G.right →
          ¬(e.src ∈ namesOf G.left ∨ e.dst ∈ namesOf G.right))) := by
  unfold is_bipartite
  simp only [Bool.and_eq_true, List.all_eq_true, List.isEmpty_iff_eq_nil,
    List.filter_eq_nil_iff, Bool.not_eq_true', Bool.or_eq_false_iff]
  constructor
  · rintro ⟨⟨hdisj, hL⟩, hR⟩
    constructor
    · intro n hn hmem
      have := hdisj n hn
      rw [← memName_iff] at hmem
      simp [hmem] at this
    · intro e he
      refine ⟨?_, ?_, ?_, ?_⟩
      · intro hs
        obtain ⟨nd, hnd, hname⟩ := List.mem_map.mp hs
        have := (hL nd hnd).1 e (by
          simp only [outgoingOf, List.mem_filter]
          exact ⟨he, by simp [hname]⟩)
        rintro (h | h) <;> rw [← memName_iff] at h
        · rw [this.1] at h; cases h
        · rw [this.2] at h; cases h
      · intro hd
        obtain ⟨nd, hnd, hname⟩ := List.mem_map.mp hd
        have := (hL nd hnd).2 e (by
          simp only [incomingOf, List.mem_filter]
          exact ⟨he, by simp [hname]⟩)
        rintro (h | h) <;> rw [← memName_iff] at h
        · rw [this.1] at h; cases h
        · rw [this.2] at h; cases h
      · intro hd
        obtain ⟨nd, hnd, hname⟩ := List.mem_map.mp hd
        have := (hR nd hnd).1 e (by
          simp only [incomingOf, List.mem_filter]
          exact ⟨he, by simp [hname]⟩)
        rintro (h | h) <;> rw [← memName_iff] at h
        · rw [this.1] at h; cases h
        · rw [this.2] at h; cases h
      · intro hs
        obtain ⟨nd, hnd, hname⟩ := List.mem_map.mp hs
        have := (hR nd hnd).2 e (by
          simp only [outgoingOf, List.mem_filter]
          exact ⟨he, by simp [hname]⟩)
        rintro (h | h) <;> rw [← memName_iff] at h
        · rw [this.1] at h; cases h
        · rw [this.2] at h; cases h
  · rintro ⟨hdisj, hE⟩
    refine ⟨⟨?_, ?_⟩, ?_⟩
    · intro n hn hx
      rw [memName_iff] at hx
      exact hdisj n hn hx
    · intro nd hnd
      constructor
      · intro e he
        have heE : e ∈ G.edges := List.mem_of_mem_filter he
        have hsrc : e.src = nd.name := by
          have := List.of_mem_filter he; simpa using this
        have hsL : e.src ∈ namesOf G.left :=
          hsrc ▸ (List.mem_map_of_mem _ hnd : nd.name ∈ namesOf G.left)
        have hni := (hE e heE).1 hsL
        push_neg at hni
        constructor
        · cases hmem : memName e.src G.right
          · rfl
          · rw [memName_iff] at hmem; exact absurd hmem hni.1
        · cases hmem : memName e.dst G.left
          · rfl
          · rw [memName_iff] at hmem; exact absurd hmem hni.2
      · intro e he
        have heE : e ∈ G.edges := List.mem_of_mem_filter he
        have hdst : e.dst = nd.name := by
          have := List.of_mem_filter he; simpa using this
        have hdL : e.dst ∈ namesOf G.left :=
          hdst ▸ (List.mem_map_of_mem _ hnd : nd.name ∈ namesOf G.left)
        have := (hE e heE).2.1 hdL
        push_neg at this
        constructor
        · cases hmem : memName e.src G.left
          · rfl
          · rw [memName_iff] at hmem; exact absurd hmem this.1
        · cases hmem : memName e.dst G.right
          · rfl
          · rw [memName_iff] at hmem; exact absurd hmem this.2
    · intro nd hnd
      constructor
      · intro e he
        have heE : e ∈ G.edges := List.mem_of_mem_filter he
        have hdst : e.dst = nd.name := by
          have := List.of_mem_filter he; simpa using this
        have hdR : e.dst ∈ namesOf G.right :=
          hdst ▸ (List.mem_map_of_mem _ hnd : nd.name ∈ namesOf G.right)
        have := (hE e heE).2.2.1 hdR
        push_neg at this
        constructor
        · cases hmem : memName e.src G.right
          · rfl
          · rw [memName_iff] at hmem; exact absurd hmem this.1
        · cases hmem : memName e.dst G.left
          · rfl
          · rw [memName_iff] at hmem; exact absurd hmem this.2
      · intro e he
        have heE : e ∈ G.edges := List.mem_of_mem_filter he
        have hsrc : e.src = nd.name := by
          have := List.of_mem_filter he; simpa using this
        have hsR : e.src ∈ namesOf G.right :=
          hsrc ▸ (List.mem_map_of_mem _ hnd : nd.name ∈ namesOf G.right)
        have := (hE e heE).2.2.2 hsR
        push_neg at this
        constructor
        · cases hmem : memName e.src G.left
          · rfl
          · rw [memName_iff] at hmem; exact absurd hmem this.1
        · cases hmem : memName e.dst G.right
          · rfl
          · rw [memName_iff] at hmem; exact absurd hmem this.2

/-- The name-conflict test passes exactly when the combined name list is
duplicate-free. -/
theorem conflict_iff (G : BGraph) :
    has_conflicting_node_names G = false ↔
      (namesOf G.left ++ namesOf G.right).Nodup := by
  unfold has_conflicting_node_names
  rw [bne_eq_false_iff_eq]
  constructor
  · intro h
    rw [← List.dedup_eq_self]
    apply List.Sublist.eq_of_length (List.dedup_sublist _)
    rw [h]
    simp [namesOf]
  · intro h
    rw [List.dedup_eq_self.mpr h]
    simp [namesOf]

/-- The multiple-edge test passes exactly when the name pairs of the edges
reachable from the left nodeset are duplicate-free. -/
theorem multiple_iff (G : BGraph) :
    has_multiple_edges G = false ↔
      ((getEdges G).map (fun e => (e.src, e.dst))).Nodup := by
  unfold has_multiple_edges
  rw [bne_eq_false_iff_eq]
  constructor
  · intro h
    rw [← List.dedup_eq_self]
    exact List.Sublist.eq_of_length (List.dedup_sublist _) h.symm
  · intro h
    rw [List.dedup_eq_self.mpr h]

/-- Grouping a list of edges by an arbitrary key over duplicate-free keys
is a permutation of the sublist whose keys occur among the keys. -/
theorem flatMap_filter_key_perm (f : PEdge → String) (keys : List String)
    (hk : keys.Nodup) (l : List PEdge) :
    (keys.flatMap (fun nm => l.filter (fun e => f e == nm))).Perm
      (l.filter (fun e => keys.contains (f e))) := by
  induction keys with
  | nil =>
    simp
  | cons k ks ih =>
    have hk' : k ∉ ks := (List.nodup_cons.mp hk).1
    simp only [List.flatMap_cons]
    have ihp := ih (List.nodup_cons.mp hk).2
    have hsplit : (l.filter (fun e => (k :: ks).contains (f e))).Perm
        (l.filter (fun e => f e == k) ++
          l.filter (fun e => ks.contains (f e))) := by
      have hcong : l.filter (fun e => (k :: ks).contains (f e)) =
          l.filter (fun e => (f e == k) || ks.contains (f e)) := by
        apply List.filter_congr
        intro e _
        rw [List.contains_cons]
      rw [hcong]
      refine (filter_or_perm_append ?_).symm
      intro e _ hcon
      apply hk'
      have ha : f e = k := by simpa using hcon.1
      have hb : f e ∈ ks := by simpa using hcon.2
      rwa [ha] at hb
    exact (List.Perm.append_left _ ihp).trans hsplit.symm
where
  filter_or_perm_append {p q : PEdge → Bool} {l : List PEdge}
      (hpq : ∀ x ∈ l, ¬(p x = true ∧ q x = true)) :
      (l.filter p ++ l.filter q).Perm
        (l.filter (fun x => p x || q x)) := by
    induction l with
    | nil => simp
    | cons a t iht =>
      have ht : ∀ x ∈ t, ¬(p x = true ∧ q x = true) := fun x hx =>
        hpq x (List.mem_cons_of_mem a hx)
      have ihtp := iht ht
      cases hp : p a
      · cases hq : q a
        · simpa [hp, hq] using ihtp
        · simp only [List.filter_cons, hp, hq, Bool.false_or, cond_true,
            cond_false]
          exact (List.perm_middle).trans (List.Perm.cons a ihtp)
      · have hqf : q a = false := by
          cases hq : q a
          · rfl
          · exact absurd ⟨hp, hq⟩ (hpq a (List.mem_cons_self a t))
        simp only [List.filter_cons, hp, hqf, Bool.true_or, cond_true,
          cond_false, List.cons_append]
        exact List.Perm.cons a ihtp

/-- When every edge has exactly one endpoint among the left names,
get_edges lists every edge exactly once. -/
theorem getEdges_perm (G : BGraph)
    (hnodL : (namesOf G.left).Nodup)
    (hwf : ∀ e ∈ G.edges,
      ((namesOf G.left).contains e.src = true ∧
        (namesOf G.left).contains e.dst = false) ∨
      ((namesOf G.left).contains e.src = false ∧
        (namesOf G.left).contains e.dst = true)) :
    (getEdges G).Perm G.edges := by
  unfold getEdges
  have h1 : G.left.flatMap (fun n => outgoingOf G n.name) =
      (namesOf G.left).flatMap
        (fun nm => G.edges.filter (fun e => e.src == nm)) := by
    unfold namesOf
    rw [List.flatMap_map]
    rfl
  have h2 : G.left.flatMap (fun n => incomingOf G n.name) =
      (namesOf G.left).flatMap
        (fun nm => G.edges.filter (fun e => e.dst == nm)) := by
    unfold namesOf
    rw [List.flatMap_map]
    rfl
  rw [h1, h2]
  have p1 := flatMap_filter_key_perm PEdge.src (namesOf G.left) hnodL G.edges
  have p2 := flatMap_filter_key_perm PEdge.dst (namesOf G.left) hnodL G.edges
  refine (p1.append p2).trans ?_
  have hcong : G.edges.filter (fun e => (namesOf G.left).contains e.dst) =
      G.edges.filter (fun e => !(namesOf G.left).contains e.src) := by
    apply List.filter_congr
    intro e he
    rcases hwf e he with ⟨ha, hb⟩ | ⟨ha, hb⟩ <;> rw [ha, hb] <;> rfl
  rw [hcong]
  exact List.filter_append_perm _ _

/-- The left nodeset after add_edge: the source node is appended when its
name is not already a left name. -/
def addLeft (G : BGraph) (s : PNode) : List PNode :=
  if (namesOf G.left).contains s.name then G.left else G.left ++ [s]

/-- The right nodeset after add_edge. -/
def addRight (G : BGraph) (t : PNode) : List PNode :=
  if (namesOf G.right).contains t.name then G.right else G.right ++ [t]

/-- The graph state add_edge builds before re-validating. -/
def postG (G : BGraph) (w : Int) (ats : Attrs) (s t : PNode) : BGraph :=
  ⟨addLeft G s, addRight G t,
    insertEdge G.edges ⟨s.name, t.name, w, ats⟩⟩

/-- add_edge returns the built state exactly when its validity re-check
passes, and the raised message otherwise. -/
theorem add_edge_def (G : BGraph) (w : Int) (ats : Attrs) (s t : PNode) :
    add_edge G w ats s t =
      match check_validity (postG G w ats s t) with
      | .error msg => Except.error msg
      | .ok _ => Except.ok (postG G w ats s t) := by
  unfold add_edge postG addLeft addRight insertNode memName
  by_cases h1 : s.name ∈ namesOf G.left <;>
    by_cases h2 : t.name ∈ namesOf G.right <;>
      simp [h1, h2]

/-- The condition under which add_edge returns normally on a valid graph:
the source name is not a right name, the terminal name is not a left name,
the two names differ, and any existing edge between the same ordered name
pair is structurally identical to the edge being added (in which case the
set insertion silently deduplicates it). -/
def add_edge_ok_cond (G : BGraph) (w : Int) (ats : Attrs)
    (s t : PNode) : Prop :=
  s.name ∉ namesOf G.right ∧ t.name ∉ namesOf G.left ∧ s.name ≠ t.name ∧
  ∀ e ∈ G.edges, e.src = s.name → e.dst = t.name →
    edgeEqB e ⟨s.name, t.name, w, ats⟩ = true

instance (G : BGraph) (w : Int) (ats : Attrs) (s t : PNode) :
    Decidable (add_edge_ok_cond G w ats s t) := by
  unfold add_edge_ok_cond; infer_instance

theorem mem_addLeft (G : BGraph) (s : PNode) (n : String) :
    n ∈ namesOf (addLeft G s) ↔ n ∈ namesOf G.left ∨ n = s.name := by
  unfold addLeft
  by_cases h : (namesOf G.left).contains s.name
  · have hs : s.name ∈ namesOf G.left := by simpa using h
    rw [if_pos h]
    constructor
    · exact Or.inl
    · rintro (h' | h')
      · exact h'
      · exact h' ▸ hs
  · rw [if_neg h, namesOf_append]
    simp [namesOf]

theorem mem_addRight (G : BGraph) (t : PNode) (n : String) :
    n ∈ namesOf (addRight G t) ↔ n ∈ namesOf G.right ∨ n = t.name := by
  unfold addRight
  by_cases h : (namesOf G.right).contains t.name
  · have ht : t.name ∈ namesOf G.right := by simpa using h
    rw [if_pos h]
    constructor
    · exact Or.inl
    · rintro (h' | h')
      · exact h'
      · exact h' ▸ ht
  · rw [if_neg h, namesOf_append]
    simp [namesOf]

/-- Appending a fresh element preserves Nodup. -/
theorem nodup_append_singleton {α : Type} (l : List α) (x : α)
    (hl : l.Nodup) (hx : x ∉ l) : (l ++ [x]).Nodup := by
  rw [List.nodup_append]
  exact ⟨hl, List.nodup_singleton x, by
    intro a ha hax
    rw [List.mem_singleton] at hax
    exact hx (hax ▸ ha)⟩

/-- The combined name list after the node insertions of add_edge is
duplicate-free when the ok-condition's name clauses hold. -/
theorem nodup_post_names (G : BGraph) (hG : validG G) (s t : PNode)
    (hc1 : s.name ∉ namesOf G.right) (hc2 : t.name ∉ namesOf G.left)
    (hc3 : s.name ≠ t.name) :
    (namesOf (addLeft G s) ++ namesOf (addRight G t)).Nodup := by
  have hnodN : (namesOf G.left ++ namesOf G.right).Nodup := by
    have := hG.2.2.2
    rwa [namesOf_append] at this
  obtain ⟨hnL, hnR, hdisj⟩ := List.nodup_append.mp hnodN
  have hL : namesOf (addLeft G s) = namesOf G.left ∨
      (namesOf (addLeft G s) = namesOf G.left ++ [s.name] ∧
        s.name ∉ namesOf G.left) := by
    unfold addLeft
    by_cases h : (namesOf G.left).contains s.name
    · left; rw [if_pos h]
    · right
      rw [if_neg h, namesOf_append]
      exact ⟨rfl, by simpa using h⟩
  have hR : namesOf (addRight G t) = namesOf G.right ∨
      (namesOf (addRight G t) = namesOf G.right ++ [t.name] ∧
        t.name ∉ namesOf G.right) := by
    unfold addRight
    by_cases h : (namesOf G.right).contains t.name
    · left; rw [if_pos h]
    · right
      rw [if_neg h, namesOf_append]
      exact ⟨rfl, by simpa using h⟩
  rw [List.nodup_append]
  refine ⟨?_, ?_, ?_⟩
  · rcases hL with h | ⟨h, hfresh⟩
    · rw [h]; exact hnL
    · rw [h]; exact nodup_append_singleton _ _ hnL hfresh
  · rcases hR with h | ⟨h, hfresh⟩
    · rw [h]; exact hnR
    · rw [h]; exact nodup_append_singleton _ _ hnR hfresh
  · intro a ha hb
    have ha' : a ∈ namesOf G.left ∨ a = s.name := (mem_addLeft G s a).mp ha
    have hb' : a ∈ namesOf G.right ∨ a = t.name := (mem_addRight G t a).mp hb
    rcases ha' with ha' | ha' <;> rcases hb' with hb' | hb'
    · exact hdisj ha' hb'
    · exact hc2 (hb' ▸ ha')
    · exact hc1 (ha' ▸ hb')
    · exact hc3 (ha'.symm.trans hb')

/-- When the ok-condition holds on a valid graph, the state built by
add_edge passes the re-validation and is again a valid graph state. -/
theorem postG_valid_of_cond (G : BGraph) (hG : validG G) (w : Int)
    (ats : Attrs) (s t : PNode) (hc : add_edge_ok_cond G w ats s t) :
    validG (postG G w ats s t) := by
  obtain ⟨hc1, hc2, hc3, hc4⟩ := hc
  by_cases hex : ∃ e ∈ G.edges, e.src = s.name ∧ e.dst = t.name
  · obtain ⟨e₀, he₀, hsrc₀, hdst₀⟩ := hex
    have hsL : s.name ∈ namesOf G.left := by
      rcases valid_edge_sides G hG e₀ he₀ with ⟨ha, _⟩ | ⟨ha, _⟩
      · rwa [hsrc₀] at ha
      · rw [hsrc₀] at ha; exact absurd ha hc1
    have htR : t.name ∈ namesOf G.right := by
      rcases valid_edge_sides G hG e₀ he₀ with ⟨_, hb⟩ | ⟨_, hb⟩
      · rwa [hdst₀] at hb
      · rw [hdst₀] at hb; exact absurd hb hc2
    have hpost : postG G w ats s t = G := by
      unfold postG addLeft addRight insertEdge
      have h1 : (namesOf G.left).contains s.name = true := by simpa using hsL
      have h2 : (namesOf G.right).contains t.name = true := by
        simpa using htR
      have h3 : G.edges.any
          (fun f => edgeEqB f ⟨s.name, t.name, w, ats⟩) = true :=
        List.any_eq_true.mpr ⟨e₀, he₀, hc4 e₀ he₀ hsrc₀ hdst₀⟩
      simp [h1, h2, h3, hsL, htR]
    rw [hpost]; exact hG
  · have happend : insertEdge G.edges ⟨s.name, t.name, w, ats⟩ =
        G.edges ++ [⟨s.name, t.name, w, ats⟩] := by
      unfold insertEdge
      have hany : G.edges.any
          (fun f => edgeEqB f ⟨s.name, t.name, w, ats⟩) = false := by
        cases hany : G.edges.any
            (fun f => edgeEqB f ⟨s.name, t.name, w, ats⟩)
        · rfl
        · exfalso
          obtain ⟨f, hf, hfe⟩ := List.any_eq_true.mp hany
          obtain ⟨p1, p2⟩ := edgeEqB_pair hfe
          exact hex ⟨f, hf, p1, p2⟩
      simp [hany]
    have hE : (postG G w ats s t).edges =
        G.edges ++ [⟨s.name, t.name, w, ats⟩] := happend
    have hmemsL : s.name ∈ namesOf (addLeft G s) :=
      (mem_addLeft G s _).mpr (Or.inr rfl)
    have hmemtR : t.name ∈ namesOf (addRight G t) :=
      (mem_addRight G t _).mpr (Or.inr rfl)
    have hnotsR : s.name ∉ namesOf (addRight G t) := by
      rw [mem_addRight]
      rintro (h | h)
      · exact hc1 h
      · exact hc3 h
    have hnottL : t.name ∉ namesOf (addLeft G s) := by
      rw [mem_addLeft]
      rintro (h | h)
      · exact hc2 h
      · exact hc3 h.symm
    have hnodup3 := nodup_post_names G hG s t hc1 hc2 hc3
    have hold : ∀ n : String, n ∈ namesOf G.left ∨ n ∈ namesOf G.right →
        ((n ∈ namesOf (addLeft G s) ↔ n ∈ namesOf G.left) ∧
         (n ∈ namesOf (addRight G t) ↔ n ∈ namesOf G.right)) := by
      intro n hn
      constructor
      · rw [mem_addLeft]
        constructor
        · rintro (h | h)
          · exact h
          · subst h
            rcases hn with h' | h'
            · exact h'
            · exact absurd h' hc1
        · exact Or.inl
      · rw [mem_addRight]
        constructor
        · rintro (h | h)
          · exact h
          · subst h
            rcases hn with h' | h'
            · exact absurd h' hc2
            · exact h'
        · exact Or.inl
    have hstat : ∀ e ∈ G.edges,
        (e.src ∈ namesOf G.left ∨ e.src ∈ namesOf G.right) ∧
        (e.dst ∈ namesOf G.left ∨ e.dst ∈ namesOf G.right) := by
      intro e he
      rcases valid_edge_sides G hG e he with ⟨ha, hb⟩ | ⟨ha, hb⟩
      · exact ⟨Or.inl ha, Or.inr hb⟩
      · exact ⟨Or.inr ha, Or.inl hb⟩
    have hdisjG : ∀ n, n ∈ namesOf G.left → n ∈ namesOf G.right → False :=
      valid_sides_disjoint G hG
    have hbip : is_bipartite (postG G w ats s t) = true := by
      rw [is_bipartite_iff]
      have hLp : (postG G w ats s t).left = addLeft G s := rfl
      have hRp : (postG G w ats s t).right = addRight G t := rfl
      rw [hLp, hRp]
      constructor
      · intro n hn hn'
        exact (List.disjoint_of_nodup_append hnodup3) hn hn'
      · intro e he
        have he' : e ∈ G.edges ++ [⟨s.name, t.name, w, ats⟩] := by
          rw [← hE]; exact he
        rcases List.mem_append.mp he' with heold | henew
        · have hG_bip := ((check_validity_ok_iff G).mp hG.1).1
          have hprops := ((is_bipartite_iff G).mp hG_bip).2 e heold
          have t1 := (hold e.src (hstat e heold).1).1
          have t2 := (hold e.src (hstat e heold).1).2
          have t3 := (hold e.dst (hstat e heold).2).1
          have t4 := (hold e.dst (hstat e heold).2).2
          refine ⟨?_, ?_, ?_, ?_⟩
          · intro h
            rw [t1] at h
            have hp := hprops.1 h
            rintro (hx | hx)
            · exact hp (Or.inl (t2.mp hx))
            · exact hp (Or.inr (t3.mp hx))
          · intro h
            rw [t3] at h
            have hp := hprops.2.1 h
            rintro (hx | hx)
            · exact hp (Or.inl (t1.mp hx))
            · exact hp (Or.inr (t4.mp hx))
          · intro h
            rw [t4] at h
            have hp := hprops.2.2.1 h
            rintro (hx | hx)
            · exact hp (Or.inl (t2.mp hx))
            · exact hp (Or.inr (t3.mp hx))
          · intro h
            rw [t2] at h
            have hp := hprops.2.2.2 h
            rintro (hx | hx)
            · exact hp (Or.inl (t1.mp hx))
            · exact hp (Or.inr (t4.mp hx))
        · rw [List.mem_singleton] at henew
          subst henew
          refine ⟨?_, ?_, ?_, ?_⟩
          · intro _
            rintro (hx | hx)
            · exact hnotsR hx
            · exact hnottL hx
          · intro h; exact absurd h hnottL
          · intro _
            rintro (hx | hx)
            · exact hnotsR hx
            · exact hnottL hx
          · intro h; exact absurd h hnotsR
    have hwfpost : ∀ e ∈ (postG G w ats s t).edges,
        ((namesOf (addLeft G s)).contains e.src = true ∧
          (namesOf (addLeft G s)).contains e.dst = false) ∨
        ((namesOf (addLeft G s)).contains e.src = false ∧
          (namesOf (addLeft G s)).contains e.dst = true) := by
      intro e he
      have he' : e ∈ G.edges ++ [⟨s.name, t.name, w, ats⟩] := by
        rw [← hE]; exact he
      rcases List.mem_append.mp he' with heold | henew
      · have t1 := (hold e.src (hstat e heold).1).1
        have t3 := (hold e.dst (hstat e heold).2).1
        rcases valid_edge_sides G hG e heold with ⟨ha, hb⟩ | ⟨ha, hb⟩
        · left
          constructor
          · simpa using t1.mpr ha
          · have : e.dst ∉ namesOf (addLeft G s) := by
              rw [t3]; intro hx; exact hdisjG e.dst hx hb
            simpa using this
        · right
          constructor
          · have : e.src ∉ namesOf (addLeft G s) := by
              rw [t1]; intro hx; exact hdisjG e.src hx ha
            simpa using this
          · simpa using t3.mpr hb
      · rw [List.mem_singleton] at henew
        subst henew
        left
        constructor
        · simpa using hmemsL
        · simpa using hnottL
    have hpairs : ((postG G w ats s t).edges.map
        (fun e => (e.src, e.dst))).Nodup := by
      rw [hE, List.map_append]
      apply nodup_append_singleton
      · exact hG.2.2.1
      · intro hmem
        obtain ⟨f, hf, hfp⟩ := List.mem_map.mp hmem
        simp only [List.map_cons, List.map_nil, List.mem_singleton,
          Prod.mk.injEq] at hfp
        exact hex ⟨f, hf, hfp.1, hfp.2⟩
    have hmulti : has_multiple_edges (postG G w ats s t) = false := by
      rw [multiple_iff]
      have hper := getEdges_perm (postG G w ats s t)
        (List.Nodup.of_append_left hnodup3) hwfpost
      exact ((hper.map _).nodup_iff).mpr hpairs
    have hconf : has_conflicting_node_names (postG G w ats s t) = false := by
      rw [conflict_iff]
      exact hnodup3
    refine ⟨?_, ?_, ?_, ?_⟩
    · rw [check_validity_ok_iff]
      exact ⟨hbip, hconf, hmulti⟩
    · intro e he
      have he' : e ∈ G.edges ++ [⟨s.name, t.name, w, ats⟩] := by
        rw [← hE]; exact he
      have hgoal : ∀ n : String, n ∈ namesOf (addLeft G s) ∨
          n ∈ namesOf (addRight G t) →
          memName n ((postG G w ats s t).left ++
            (postG G w ats s t).right) = true := by
        intro n hn
        rw [memName_iff, namesOf_append]
        exact List.mem_append.mpr hn
      rcases List.mem_append.mp he' with heold | henew
      · have t1 := (hold e.src (hstat e heold).1).1
        have t2 := (hold e.src (hstat e heold).1).2
        have t3 := (hold e.dst (hstat e heold).2).1
        have t4 := (hold e.dst (hstat e heold).2).2
        constructor
        · apply hgoal
          rcases (hstat e heold).1 with h | h
          · exact Or.inl (t1.mpr h)
          · exact Or.inr (t2.mpr h)
        · apply hgoal
          rcases (hstat e heold).2 with h | h
          · exact Or.inl (t3.mpr h)
          · exact Or.inr (t4.mpr h)
      · rw [List.mem_singleton] at henew
        subst henew
        exact ⟨hgoal _ (Or.inl hmemsL), hgoal _ (Or.inr hmemtR)⟩
    · exact hpairs
    · rw [namesOf_append]
      exact hnodup3

/-- When the re-validation of the built state passes on a valid graph, the
ok-condition must have held. -/
theorem cond_of_postG_ok (G : BGraph) (hG : validG G) (w : Int)
    (ats : Attrs) (s t : PNode)
    (hok : okB (check_validity (postG G w ats s t)) = true) :
    add_edge_ok_cond G w ats s t := by
  obtain ⟨hbip, hconf, hmulti⟩ := (check_validity_ok_iff _).mp hok
  have hLp : (postG G w ats s t).left = addLeft G s := rfl
  have hRp : (postG G w ats s t).right = addRight G t := rfl
  have hdisj3 := ((is_bipartite_iff _).mp hbip).1
  rw [hLp, hRp] at hdisj3
  have hc1 : s.name ∉ namesOf G.right := by
    intro hsR
    exact hdisj3 s.name ((mem_addLeft G s _).mpr (Or.inr rfl))
      ((mem_addRight G t _).mpr (Or.inl hsR))
  have hc2 : t.name ∉ namesOf G.left := by
    intro htL
    exact hdisj3 t.name ((mem_addLeft G s _).mpr (Or.inl htL))
      ((mem_addRight G t _).mpr (Or.inr rfl))
  have hc3 : s.name ≠ t.name := by
    intro h
    exact hdisj3 s.name ((mem_addLeft G s _).mpr (Or.inr rfl))
      ((mem_addRight G t _).mpr (Or.inr h))
  refine ⟨hc1, hc2, hc3, ?_⟩
  intro e₀ he₀ hsrc₀ hdst₀
  by_contra hne
  have hsL : s.name ∈ namesOf G.left := by
    rcases valid_edge_sides G hG e₀ he₀ with ⟨ha, _⟩ | ⟨ha, _⟩
    · rwa [hsrc₀] at ha
    · rw [hsrc₀] at ha; exact absurd ha hc1
  have htR : t.name ∈ namesOf G.right := by
    rcases valid_edge_sides G hG e₀ he₀ with ⟨_, hb⟩ | ⟨_, hb⟩
    · rwa [hdst₀] at hb
    · rw [hdst₀] at hb; exact absurd hb hc2
  have happend : insertEdge G.edges ⟨s.name, t.name, w, ats⟩ =
      G.edges ++ [⟨s.name, t.name, w, ats⟩] := by
    unfold insertEdge
    have hany : G.edges.any
        (fun f => edgeEqB f ⟨s.name, t.name, w, ats⟩) = false := by
      cases hany : G.edges.any
          (fun f => edgeEqB f ⟨s.name, t.name, w, ats⟩)
      · rfl
      · exfalso
        obtain ⟨f, hf, hfe⟩ := List.any_eq_true.mp hany
        obtain ⟨p1, p2⟩ := edgeEqB_pair hfe
        have hfeq : f = e₀ := by
          apply List.inj_on_of_nodup_map hG.2.2.1 hf he₀
          rw [p1, p2, hsrc₀, hdst₀]
        exact hne (by rw [← hfeq]; exact hfe)
    simp [hany]
  have hE : (postG G w ats s t).edges =
      G.edges ++ [⟨s.name, t.name, w, ats⟩] := happend
  have hALeq : addLeft G s = G.left := by
    unfold addLeft
    rw [if_pos (by simpa using hsL : (namesOf G.left).contains s.name = true)]
  have hnodL : (namesOf (postG G w ats s t).left).Nodup := by
    rw [hLp, hALeq]
    have := hG.2.2.2
    rw [namesOf_append] at this
    exact List.Nodup.of_append_left this
  have hdisjG := valid_sides_disjoint G hG
  have hwf : ∀ e ∈ (postG G w ats s t).edges,
      ((namesOf (postG G w ats s t).left).contains e.src = true ∧
        (namesOf (postG G w ats s t).left).contains e.dst = false) ∨
      ((namesOf (postG G w ats s t).left).contains e.src = false ∧
        (namesOf (postG G w ats s t).left).contains e.dst = true) := by
    intro e he
    rw [hLp, hALeq]
    have he' : e ∈ G.edges ++ [⟨s.name, t.name, w, ats⟩] := by
      rw [← hE]; exact he
    rcases List.mem_append.mp he' with heold | henew
    · rcases valid_edge_sides G hG e heold with ⟨ha, hb⟩ | ⟨ha, hb⟩
      · left
        refine ⟨by simpa using ha, ?_⟩
        have : e.dst ∉ namesOf G.left := fun hx => hdisjG e.dst hx hb
        simpa using this
      · right
        refine ⟨?_, by simpa using hb⟩
        have : e.src ∉ namesOf G.left := fun hx => hdisjG e.src hx ha
        simpa using this
    · rw [List.mem_singleton] at henew
      subst henew
      left
      refine ⟨by simpa using hsL, ?_⟩
      have : t.name ∉ namesOf G.left := fun hx => hdisjG t.name hx htR
      simpa using this
  have hper := getEdges_perm (postG G w ats s t) hnodL hwf
  have hpairs' : ((postG G w ats s t).edges.map
      (fun e => (e.src, e.dst))).Nodup :=
    ((hper.map _).nodup_iff).mp ((multiple_iff _).mp hmulti)
  rw [hE, List.map_append] at hpairs'
  obtain ⟨_, _, hdis⟩ := List.nodup_append.mp hpairs'
  exact hdis (List.mem_map.mpr ⟨e₀, he₀, by rw [hsrc₀, hdst₀]⟩) (by simp)


/-! ### Embedding of Preprocessing.construct_balanced_equivalent (C5) -/

/-- BipartiteGraph.is_balanced. -/
def is_balancedB (G : BGraph) : Bool := G.left.length == G.right.length

/-- The inner for-loop of construct_balanced_equivalent: connect the dummy
node to every node of the complete nodeset with a zero-weight dummy edge,
as the dummy-source (left deficiency) or dummy-terminal (right deficiency)
of each new edge. -/
def connect_dummy (ld : Bool) (dummy : PNode) :
    List PNode → BGraph → Except String BGraph
  | [], G => .ok G
  | c :: rest, G =>
    match (if ld then add_edge G 0 [] dummy c else add_edge G 0 [] c dummy)
      with
    | .error msg => .error msg
    | .ok G' => connect_dummy ld dummy rest G'

/-- The while-loop of construct_balanced_equivalent, with explicit fuel and
an explicit supply of dummy-node names standing for the random fresh names
of the source ("Dummy Node " + random integer); none models a spin without
enough fuel or names. -/
def balance_loop (complete : List PNode) (ld : Bool) :
    Nat → List String → BGraph → Option (Except String BGraph)
  | 0, _, G => if is_balancedB G then some (.ok G) else none
  | fuel + 1, names, G =>
    if is_balancedB G then some (.ok G)
    else
      match names with
      | [] => none
      | nm :: rest =>
        match connect_dummy ld ⟨nm, []⟩ complete G with
        | .error msg => some (.error msg)
        | .ok G' => balance_loop complete ld fuel rest G'

/-- Preprocessing.construct_balanced_equivalent: deep-copy, pick the
complete (larger) and deficient nodesets, then add one dummy node per
iteration until balanced. -/
def construct_balanced_equivalent (G : BGraph) (names : List String)
    (fuel : Nat) : Option (Except String BGraph) :=
  let Gp := deepcopyG G
  let complete := if Gp.left.length > Gp.right.length then Gp.left
    else Gp.right
  let deficient := if Gp.left.length > Gp.right.length then Gp.right
    else Gp.left
  let ld : Bool := deficient.length == Gp.left.length
  balance_loop complete ld fuel names Gp

/-- Validity only depends on the nodesets and the multiset of edges. -/
theorem validG_of_perm (G H : BGraph) (hG : validG G) (hL : H.left = G.left)
    (hR : H.right = G.right) (hE : H.edges.Perm G.edges) : validG H := by
  have hmemE : ∀ e, e ∈ H.edges ↔ e ∈ G.edges := fun e => hE.mem_iff
  have hsides := valid_edge_sides G hG
  have hdisjG := valid_sides_disjoint G hG
  have hnodL : (namesOf H.left).Nodup := by
    rw [hL]
    have := hG.2.2.2
    rw [namesOf_append] at this
    exact List.Nodup.of_append_left this
  have hbip : is_bipartite H = true := by
    rw [is_bipartite_iff, hL, hR]
    constructor
    · intro n hn hn'
      exact hdisjG n hn hn'
    · intro e he
      have heG : e ∈ G.edges := (hmemE e).mp he
      have hbipG := ((check_validity_ok_iff G).mp hG.1).1
      exact ((is_bipartite_iff G).mp hbipG).2 e heG
  have hconf : has_conflicting_node_names H = false := by
    rw [conflict_iff, hL, hR]
    have := hG.2.2.2
    rwa [namesOf_append] at this
  have hwfH : ∀ e ∈ H.edges,
      ((namesOf H.left).contains e.src = true ∧
        (namesOf H.left).contains e.dst = false) ∨
      ((namesOf H.left).contains e.src = false ∧
        (namesOf H.left).contains e.dst = true) := by
    intro e he
    rw [hL]
    rcases hsides e ((hmemE e).mp he) with ⟨ha, hb⟩ | ⟨ha, hb⟩
    · left
      refine ⟨by simpa using ha, ?_⟩
      have : e.dst ∉ namesOf G.left := fun hx => hdisjG e.dst hx hb
      simpa using this
    · right
      refine ⟨?_, by simpa using hb⟩
      have : e.src ∉ namesOf G.left := fun hx => hdisjG e.src hx ha
      simpa using this
  have hpairsH : (H.edges.map (fun e => (e.src, e.dst))).Nodup :=
    ((hE.map _).nodup_iff).mpr hG.2.2.1
  have hmulti : has_multiple_edges H = false := by
    rw [multiple_iff]
    have hper := getEdges_perm H hnodL hwfH
    exact ((hper.map _).nodup_iff).mpr hpairsH
  refine ⟨?_, ?_, hpairsH, ?_⟩
  · rw [check_validity_ok_iff]
    exact ⟨hbip, hconf, hmulti⟩
  · intro e he
    have := hG.2.1 e ((hmemE e).mp he)
    constructor
    · rw [memName_iff, namesOf_append, hL, hR]
      have h1 := this.1
      rw [memName_iff, namesOf_append] at h1
      exact h1
    · rw [memName_iff, namesOf_append, hL, hR]
      have h2 := this.2
      rw [memName_iff, namesOf_append] at h2
      exact h2
  · rw [namesOf_append, hL, hR]
    have := hG.2.2.2
    rwa [namesOf_append] at this

/-- The deep copy keeps both nodesets on the nose, permutes the edge list
(grouping it by source node), and yields a valid graph again. -/
theorem deepcopy_facts (G : BGraph) (hG : validG G) :
    (deepcopyG G).left = G.left ∧ (deepcopyG G).right = G.right ∧
    (deepcopyG G).edges.Perm G.edges ∧ validG (deepcopyG G) := by
  have hid : produce_duplicate_disconnected_node = id := funext fun _ => rfl
  have hL : (deepcopyG G).left = G.left := by
    show G.left.map produce_duplicate_disconnected_node = G.left
    rw [hid, List.map_id]
  have hR : (deepcopyG G).right = G.right := by
    show G.right.map produce_duplicate_disconnected_node = G.right
    rw [hid, List.map_id]
  have hE : (deepcopyG G).edges.Perm G.edges := by
    have := extract_edges_perm G hG (fun _ => true)
    rwa [List.filter_true] at this
  exact ⟨hL, hR, hE, validG_of_perm G _ hG hL hR hE⟩

/-- On a valid graph a call satisfying the ok-condition returns the built
state, which is valid. -/
theorem add_edge_ok_of_cond (G : BGraph) (hG : validG G) (w : Int)
    (ats : Attrs) (s t : PNode) (hc : add_edge_ok_cond G w ats s t) :
    add_edge G w ats s t = Except.ok (postG G w ats s t) ∧
      validG (postG G w ats s t) := by
  have hv := postG_valid_of_cond G hG w ats s t hc
  refine ⟨?_, hv⟩
  rw [add_edge_def]
  have hok := hv.1
  cases hvv : check_validity (postG G w ats s t) with
  | error msg =>
    rw [hvv] at hok
    exact absurd hok (by simp [okB])
  | ok u => rfl

theorem addLeft_of_mem (G : BGraph) (s : PNode)
    (h : s.name ∈ namesOf G.left) : addLeft G s = G.left := by
  unfold addLeft
  rw [if_pos (by simpa using h)]

theorem addLeft_of_not_mem (G : BGraph) (s : PNode)
    (h : s.name ∉ namesOf G.left) : addLeft G s = G.left ++ [s] := by
  unfold addLeft
  rw [if_neg (by simpa using h)]

theorem addRight_of_mem (G : BGraph) (t : PNode)
    (h : t.name ∈ namesOf G.right) : addRight G t = G.right := by
  unfold addRight
  rw [if_pos (by simpa using h)]

theorem addRight_of_not_mem (G : BGraph) (t : PNode)
    (h : t.name ∉ namesOf G.right) : addRight G t = G.right ++ [t] := by
  unfold addRight
  rw [if_neg (by simpa using h)]

theorem insertEdge_of_fresh (l : List PEdge) (e : PEdge)
    (h : ∀ f ∈ l, edgeEqB f e = false) : insertEdge l e = l ++ [e] := by
  unfold insertEdge
  rw [if_neg]
  simp only [List.any_eq_true, not_exists]
  intro f hf
  rw [h f hf.1] at hf
  exact Bool.false_ne_true hf.2

/-- One step of the dummy-connection loop when the add_edge call succeeds. -/
theorem connect_dummy_cons_ok (ld : Bool) (dummy c : PNode)
    (rest : List PNode) (G G' : BGraph)
    (h : (if ld then add_edge G 0 [] dummy c else add_edge G 0 [] c dummy) =
      Except.ok G') :
    connect_dummy ld dummy (c :: rest) G = connect_dummy ld dummy rest G' := by
  conv_lhs => unfold connect_dummy
  rw [h]

set_option maxHeartbeats 1000000 in
/-- Wiring a dummy node already sitting in the right nodeset to a list of
left nodes: every add_edge call succeeds, and the run appends one
zero-weight edge from each listed node to the dummy, in list order. -/
theorem connect_dummy_false_in (dummy : PNode) (cs : List PNode) :
    ∀ G : BGraph, validG G →
      (∀ c ∈ cs, c.name ∈ namesOf G.left) →
      dummy.name ∉ namesOf G.left →
      dummy.name ∈ namesOf G.right →
      (∀ e ∈ G.edges, e.dst = dummy.name → e.src ∉ cs.map PNode.name) →
      (cs.map PNode.name).Nodup →
      connect_dummy false dummy cs G =
        Except.ok ⟨G.left, G.right,
          G.edges ++ cs.map (fun c => ⟨c.name, dummy.name, 0, []⟩)⟩ ∧
      validG ⟨G.left, G.right,
          G.edges ++ cs.map (fun c => ⟨c.name, dummy.name, 0, []⟩)⟩ := by
  induction cs with
  | nil =>
    intro G hG _ _ _ _ _
    have h0 : (⟨G.left, G.right,
        G.edges ++ ([] : List PNode).map
          (fun c => (⟨c.name, dummy.name, 0, []⟩ : PEdge))⟩ : BGraph) = G := by
      simp
    rw [h0]
    exact ⟨rfl, hG⟩
  | cons c rest ih =>
    intro G hG hcL hdL hdR hnew hnodup
    have hcLhead : c.name ∈ namesOf G.left := hcL c (List.mem_cons_self c rest)
    have hcond : add_edge_ok_cond G 0 [] c dummy := by
      refine ⟨fun hx => valid_sides_disjoint G hG c.name hcLhead hx, hdL,
        fun hx => hdL (hx ▸ hcLhead), ?_⟩
      intro e he hsrc hdst
      have hm : e.src ∈ (c :: rest).map PNode.name := by rw [hsrc]; simp
      exact absurd hm (hnew e he hdst)
    obtain ⟨heq, hval⟩ := add_edge_ok_of_cond G hG 0 [] c dummy hcond
    have hfresh : ∀ f ∈ G.edges,
        edgeEqB f ⟨c.name, dummy.name, 0, []⟩ = false := by
      intro f hf
      cases hEq : edgeEqB f ⟨c.name, dummy.name, 0, []⟩ with
      | false => rfl
      | true =>
        obtain ⟨h1, h2⟩ := edgeEqB_pair hEq
        have hm : f.src ∈ (c :: rest).map PNode.name := by rw [h1]; simp
        exact absurd hm (hnew f hf h2)
    have hpost : postG G 0 [] c dummy =
        ⟨G.left, G.right, G.edges ++ [⟨c.name, dummy.name, 0, []⟩]⟩ := by
      unfold postG
      rw [addLeft_of_mem G c hcLhead, addRight_of_mem G dummy hdR,
        insertEdge_of_fresh _ _ hfresh]
    rw [hpost] at heq hval
    have hstep : connect_dummy false dummy (c :: rest) G =
        connect_dummy false dummy rest
          ⟨G.left, G.right, G.edges ++ [⟨c.name, dummy.name, 0, []⟩]⟩ :=
      connect_dummy_cons_ok false dummy c rest G _ heq
    have hnodup' : (List.map PNode.name (c :: rest)).Nodup := hnodup
    rw [List.map_cons, List.nodup_cons] at hnodup'
    have hcL' : ∀ c' ∈ rest, c'.name ∈
        namesOf (⟨G.left, G.right,
          G.edges ++ [(⟨c.name, dummy.name, 0, []⟩ : PEdge)]⟩ : BGraph).left :=
      fun c' hc' => hcL c' (List.mem_cons_of_mem c hc')
    have hnew' : ∀ e ∈ (⟨G.left, G.right,
          G.edges ++ [(⟨c.name, dummy.name, 0, []⟩ : PEdge)]⟩ : BGraph).edges,
        e.dst = dummy.name → e.src ∉ rest.map PNode.name := by
      intro e he hdst hmem
      rcases List.mem_append.mp he with hold | hnewe
      · exact hnew e hold hdst (by simp [hmem])
      · have hee : e = ⟨c.name, dummy.name, 0, []⟩ := List.mem_singleton.mp hnewe
        subst hee
        exact hnodup'.1 hmem
    obtain ⟨hrec, hvrec⟩ := ih ⟨G.left, G.right,
        G.edges ++ [⟨c.name, dummy.name, 0, []⟩]⟩ hval hcL' hdL hdR hnew'
        hnodup'.2
    have hlist : (G.edges ++ [(⟨c.name, dummy.name, 0, []⟩ : PEdge)]) ++
        rest.map (fun c' => (⟨c'.name, dummy.name, 0, []⟩ : PEdge)) =
        G.edges ++ (c :: rest).map
          (fun c' => (⟨c'.name, dummy.name, 0, []⟩ : PEdge)) := by
      rw [List.append_assoc, List.map_cons]
      rfl
    constructor
    · have he' : connect_dummy false dummy (c :: rest) G =
          Except.ok ⟨G.left, G.right,
            (G.edges ++ [(⟨c.name, dummy.name, 0, []⟩ : PEdge)]) ++
              rest.map (fun c' => (⟨c'.name, dummy.name, 0, []⟩ : PEdge))⟩ := by
        rw [hstep]
        exact hrec
      rw [hlist] at he'
      exact he'
    · have hv' : validG ⟨G.left, G.right,
          (G.edges ++ [(⟨c.name, dummy.name, 0, []⟩ : PEdge)]) ++
            rest.map (fun c' => (⟨c'.name, dummy.name, 0, []⟩ : PEdge))⟩ := hvrec
      rw [hlist] at hv'
      exact hv'

set_option maxHeartbeats 1000000 in
/-- One pass of the balancing loop with the right side deficient: a fresh
dummy node is appended to the right nodeset and wired to every left node by
a zero-weight edge. -/
theorem connect_dummy_false_spec (dummy : PNode) (cs : List PNode)
    (G : BGraph) (hG : validG G)
    (hcL : ∀ c ∈ cs, c.name ∈ namesOf G.left)
    (hdL : dummy.name ∉ namesOf G.left)
    (hdR : dummy.name ∉ namesOf G.right)
    (hnodup : (cs.map PNode.name).Nodup)
    (hne : cs ≠ []) :
    connect_dummy false dummy cs G =
      Except.ok ⟨G.left, G.right ++ [dummy],
        G.edges ++ cs.map (fun c => ⟨c.name, dummy.name, 0, []⟩)⟩ ∧
    validG ⟨G.left, G.right ++ [dummy],
        G.edges ++ cs.map (fun c => ⟨c.name, dummy.name, 0, []⟩)⟩ := by
  cases cs with
  | nil => exact absurd rfl hne
  | cons c rest =>
    have hcLhead : c.name ∈ namesOf G.left := hcL c (List.mem_cons_self c rest)
    have hnodst : ∀ e ∈ G.edges, e.dst ≠ dummy.name := by
      intro e he hdst
      rcases valid_edge_sides G hG e he with ⟨_, hb⟩ | ⟨_, hb⟩
      · exact hdR (hdst ▸ hb)
      · exact hdL (hdst ▸ hb)
    have hcond : add_edge_ok_cond G 0 [] c dummy := by
      refine ⟨fun hx => valid_sides_disjoint G hG c.name hcLhead hx, hdL,
        fun hx => hdL (hx ▸ hcLhead), ?_⟩
      intro e he _ hdst
      exact absurd hdst (hnodst e he)
    obtain ⟨heq, hval⟩ := add_edge_ok_of_cond G hG 0 [] c dummy hcond
    have hfresh : ∀ f ∈ G.edges,
        edgeEqB f ⟨c.name, dummy.name, 0, []⟩ = false := by
      intro f hf
      cases hEq : edgeEqB f ⟨c.name, dummy.name, 0, []⟩ with
      | false => rfl
      | true => exact absurd (edgeEqB_pair hEq).2 (hnodst f hf)
    have hpost : postG G 0 [] c dummy =
        ⟨G.left, G.right ++ [dummy],
          G.edges ++ [⟨c.name, dummy.name, 0, []⟩]⟩ := by
      unfold postG
      rw [addLeft_of_mem G c hcLhead, addRight_of_not_mem G dummy hdR,
        insertEdge_of_fresh _ _ hfresh]
    rw [hpost] at heq hval
    have hstep : connect_dummy false dummy (c :: rest) G =
        connect_dummy false dummy rest
          ⟨G.left, G.right ++ [dummy],
            G.edges ++ [⟨c.name, dummy.name, 0, []⟩]⟩ :=
      connect_dummy_cons_ok false dummy c rest G _ heq
    have hnodup' : (List.map PNode.name (c :: rest)).Nodup := hnodup
    rw [List.map_cons, List.nodup_cons] at hnodup'
    have hcL' : ∀ c' ∈ rest, c'.name ∈
        namesOf (⟨G.left, G.right ++ [dummy],
          G.edges ++ [(⟨c.name, dummy.name, 0, []⟩ : PEdge)]⟩ : BGraph).left :=
      fun c' hc' => hcL c' (List.mem_cons_of_mem c hc')
    have hdR' : dummy.name ∈ namesOf (⟨G.left, G.right ++ [dummy],
        G.edges ++ [(⟨c.name, dummy.name, 0, []⟩ : PEdge)]⟩ : BGraph).right := by
      show dummy.name ∈ namesOf (G.right ++ [dummy])
      rw [namesOf_append]
      exact List.mem_append.mpr (Or.inr (by simp [namesOf]))
    have hnew' : ∀ e ∈ (⟨G.left, G.right ++ [dummy],
          G.edges ++ [(⟨c.name, dummy.name, 0, []⟩ : PEdge)]⟩ : BGraph).edges,
        e.dst = dummy.name → e.src ∉ rest.map PNode.name := by
      intro e he hdst hmem
      rcases List.mem_append.mp he with hold | hnewe
      · exact hnodst e hold hdst
      · have hee : e = ⟨c.name, dummy.name, 0, []⟩ := List.mem_singleton.mp hnewe
        subst hee
        exact hnodup'.1 hmem
    obtain ⟨hrec, hvrec⟩ := connect_dummy_false_in dummy rest
        ⟨G.left, G.right ++ [dummy], G.edges ++ [⟨c.name, dummy.name, 0, []⟩]⟩
        hval hcL' hdL hdR' hnew' hnodup'.2
    have hlist : (G.edges ++ [(⟨c.name, dummy.name, 0, []⟩ : PEdge)]) ++
        rest.map (fun c' => (⟨c'.name, dummy.name, 0, []⟩ : PEdge)) =
        G.edges ++ (c :: rest).map
          (fun c' => (⟨c'.name, dummy.name, 0, []⟩ : PEdge)) := by
      rw [List.append_assoc, List.map_cons]
      rfl
    constructor
    · have he' : connect_dummy false dummy (c :: rest) G =
          Except.ok ⟨G.left, G.right ++ [dummy],
            (G.edges ++ [(⟨c.name, dummy.name, 0, []⟩ : PEdge)]) ++
              rest.map (fun c' => (⟨c'.name, dummy.name, 0, []⟩ : PEdge))⟩ := by
        rw [hstep]
        exact hrec
      rw [hlist] at he'
      exact he'
    · have hv' : validG ⟨G.left, G.right ++ [dummy],
          (G.edges ++ [(⟨c.name, dummy.name, 0, []⟩ : PEdge)]) ++
            rest.map (fun c' => (⟨c'.name, dummy.name, 0, []⟩ : PEdge))⟩ := hvrec
      rw [hlist] at hv'
      exact hv'

set_option maxHeartbeats 1000000 in
/-- Wiring a dummy node already sitting in the left nodeset to a list of
right nodes: every add_edge call succeeds, and the run appends one
zero-weight edge from the dummy to each listed node, in list order. -/
theorem connect_dummy_true_in (dummy : PNode) (cs : List PNode) :
    ∀ G : BGraph, validG G →
      (∀ c ∈ cs, c.name ∈ namesOf G.right) →
      dummy.name ∈ namesOf G.left →
      dummy.name ∉ namesOf G.right →
      (∀ e ∈ G.edges, e.src = dummy.name → e.dst ∉ cs.map PNode.name) →
      (cs.map PNode.name).Nodup →
      connect_dummy true dummy cs G =
        Except.ok ⟨G.left, G.right,
          G.edges ++ cs.map (fun c => ⟨dummy.name, c.name, 0, []⟩)⟩ ∧
      validG ⟨G.left, G.right,
          G.edges ++ cs.map (fun c => ⟨dummy.name, c.name, 0, []⟩)⟩ := by
  induction cs with
  | nil =>
    intro G hG _ _ _ _ _
    have h0 : (⟨G.left, G.right,
        G.edges ++ ([] : List PNode).map
          (fun c => (⟨dummy.name, c.name, 0, []⟩ : PEdge))⟩ : BGraph) = G := by
      simp
    rw [h0]
    exact ⟨rfl, hG⟩
  | cons c rest ih =>
    intro G hG hcR hdL hdR hnew hnodup
    have hcRhead : c.name ∈ namesOf G.right := hcR c (List.mem_cons_self c rest)
    have hcond : add_edge_ok_cond G 0 [] dummy c := by
      refine ⟨hdR, fun hx => valid_sides_disjoint G hG c.name hx hcRhead,
        fun hx => hdR (hx ▸ hcRhead), ?_⟩
      intro e he hsrc hdst
      have hm : e.dst ∈ (c :: rest).map PNode.name := by rw [hdst]; simp
      exact absurd hm (hnew e he hsrc)
    obtain ⟨heq, hval⟩ := add_edge_ok_of_cond G hG 0 [] dummy c hcond
    have hfresh : ∀ f ∈ G.edges,
        edgeEqB f ⟨dummy.name, c.name, 0, []⟩ = false := by
      intro f hf
      cases hEq : edgeEqB f ⟨dummy.name, c.name, 0, []⟩ with
      | false => rfl
      | true =>
        obtain ⟨h1, h2⟩ := edgeEqB_pair hEq
        have hm : f.dst ∈ (c :: rest).map PNode.name := by rw [h2]; simp
        exact absurd hm (hnew f hf h1)
    have hpost : postG G 0 [] dummy c =
        ⟨G.left, G.right, G.edges ++ [⟨dummy.name, c.name, 0, []⟩]⟩ := by
      unfold postG
      rw [addLeft_of_mem G dummy hdL, addRight_of_mem G c hcRhead,
        insertEdge_of_fresh _ _ hfresh]
    rw [hpost] at heq hval
    have hstep : connect_dummy true dummy (c :: rest) G =
        connect_dummy true dummy rest
          ⟨G.left, G.right, G.edges ++ [⟨dummy.name, c.name, 0, []⟩]⟩ :=
      connect_dummy_cons_ok true dummy c rest G _ heq
    have hnodup' : (List.map PNode.name (c :: rest)).Nodup := hnodup
    rw [List.map_cons, List.nodup_cons] at hnodup'
    have hcR' : ∀ c' ∈ rest, c'.name ∈
        namesOf (⟨G.left, G.right,
          G.edges ++ [(⟨dummy.name, c.name, 0, []⟩ : PEdge)]⟩ : BGraph).right :=
      fun c' hc' => hcR c' (List.mem_cons_of_mem c hc')
    have hnew' : ∀ e ∈ (⟨G.left, G.right,
          G.edges ++ [(⟨dummy.name, c.name, 0, []⟩ : PEdge)]⟩ : BGraph).edges,
        e.src = dummy.name → e.dst ∉ rest.map PNode.name := by
      intro e he hsrc hmem
      rcases List.mem_append.mp he with hold | hnewe
      · exact hnew e hold hsrc (by simp [hmem])
      · have hee : e = ⟨dummy.name, c.name, 0, []⟩ := List.mem_singleton.mp hnewe
        subst hee
        exact hnodup'.1 hmem
    obtain ⟨hrec, hvrec⟩ := ih ⟨G.left, G.right,
        G.edges ++ [⟨dummy.name, c.name, 0, []⟩]⟩ hval hcR' hdL hdR hnew'
        hnodup'.2
    have hlist : (G.edges ++ [(⟨dummy.name, c.name, 0, []⟩ : PEdge)]) ++
        rest.map (fun c' => (⟨dummy.name, c'.name, 0, []⟩ : PEdge)) =
        G.edges ++ (c :: rest).map
          (fun c' => (⟨dummy.name, c'.name, 0, []⟩ : PEdge)) := by
      rw [List.append_assoc, List.map_cons]
      rfl
    constructor
    · have he' : connect_dummy true dummy (c :: rest) G =
          Except.ok ⟨G.left, G.right,
            (G.edges ++ [(⟨dummy.name, c.name, 0, []⟩ : PEdge)]) ++
              rest.map (fun c' => (⟨dummy.name, c'.name, 0, []⟩ : PEdge))⟩ := by
        rw [hstep]
        exact hrec
      rw [hlist] at he'
      exact he'
    · have hv' : validG ⟨G.left, G.right,
          (G.edges ++ [(⟨dummy.name, c.name, 0, []⟩ : PEdge)]) ++
            rest.map (fun c' => (⟨dummy.name, c'.name, 0, []⟩ : PEdge))⟩ := hvrec
      rw [hlist] at hv'
      exact hv'

set_option maxHeartbeats 1000000 in
/-- One pass of the balancing loop with the left side deficient: a fresh
dummy node is appended to the left nodeset and wired to every right node by
a zero-weight edge. -/
theorem connect_dummy_true_spec (dummy : PNode) (cs : List PNode)
    (G : BGraph) (hG : validG G)
    (hcR : ∀ c ∈ cs, c.name ∈ namesOf G.right)
    (hdL : dummy.name ∉ namesOf G.left)
    (hdR : dummy.name ∉ namesOf G.right)
    (hnodup : (cs.map PNode.name).Nodup)
    (hne : cs ≠ []) :
    connect_dummy true dummy cs G =
      Except.ok ⟨G.left ++ [dummy], G.right,
        G.edges ++ cs.map (fun c => ⟨dummy.name, c.name, 0, []⟩)⟩ ∧
    validG ⟨G.left ++ [dummy], G.right,
        G.edges ++ cs.map (fun c => ⟨dummy.name, c.name, 0, []⟩)⟩ := by
  cases cs with
  | nil => exact absurd rfl hne
  | cons c rest =>
    have hcRhead : c.name ∈ namesOf G.right := hcR c (List.mem_cons_self c rest)
    have hnosrc : ∀ e ∈ G.edges, e.src ≠ dummy.name := by
      intro e he hsrc
      rcases valid_edge_sides G hG e he with ⟨ha, _⟩ | ⟨ha, _⟩
      · exact hdL (hsrc ▸ ha)
      · exact hdR (hsrc ▸ ha)
    have hcond : add_edge_ok_cond G 0 [] dummy c := by
      refine ⟨hdR, fun hx => valid_sides_disjoint G hG c.name hx hcRhead,
        fun hx => hdR (hx ▸ hcRhead), ?_⟩
      intro e he hsrc _
      exact absurd hsrc (hnosrc e he)
    obtain ⟨heq, hval⟩ := add_edge_ok_of_cond G hG 0 [] dummy c hcond
    have hfresh : ∀ f ∈ G.edges,
        edgeEqB f ⟨dummy.name, c.name, 0, []⟩ = false := by
      intro f hf
      cases hEq : edgeEqB f ⟨dummy.name, c.name, 0, []⟩ with
      | false => rfl
      | true => exact absurd (edgeEqB_pair hEq).1 (hnosrc f hf)
    have hpost : postG G 0 [] dummy c =
        ⟨G.left ++ [dummy], G.right,
          G.edges ++ [⟨dummy.name, c.name, 0, []⟩]⟩ := by
      unfold postG
      rw [addLeft_of_not_mem G dummy hdL, addRight_of_mem G c hcRhead,
        insertEdge_of_fresh _ _ hfresh]
    rw [hpost] at heq hval
    have hstep : connect_dummy true dummy (c :: rest) G =
        connect_dummy true dummy rest
          ⟨G.left ++ [dummy], G.right,
            G.edges ++ [⟨dummy.name, c.name, 0, []⟩]⟩ :=
      connect_dummy_cons_ok true dummy c rest G _ heq
    have hnodup' : (List.map PNode.name (c :: rest)).Nodup := hnodup
    rw [List.map_cons, List.nodup_cons] at hnodup'
    have hcR' : ∀ c' ∈ rest, c'.name ∈
        namesOf (⟨G.left ++ [dummy], G.right,
          G.edges ++ [(⟨dummy.name, c.name, 0, []⟩ : PEdge)]⟩ : BGraph).right :=
      fun c' hc' => hcR c' (List.mem_cons_of_mem c hc')
    have hdL' : dummy.name ∈ namesOf (⟨G.left ++ [dummy], G.right,
        G.edges ++ [(⟨dummy.name, c.name, 0, []⟩ : PEdge)]⟩ : BGraph).left := by
      show dummy.name ∈ namesOf (G.left ++ [dummy])
      rw [namesOf_append]
      exact List.mem_append.mpr (Or.inr (by simp [namesOf]))
    have hnew' : ∀ e ∈ (⟨G.left ++ [dummy], G.right,
          G.edges ++ [(⟨dummy.name, c.name, 0, []⟩ : PEdge)]⟩ : BGraph).edges,
        e.src = dummy.name → e.dst ∉ rest.map PNode.name := by
      intro e he hsrc hmem
      rcases List.mem_append.mp he with hold | hnewe
      · exact hnosrc e hold hsrc
      · have hee : e = ⟨dummy.name, c.name, 0, []⟩ := List.mem_singleton.mp hnewe
        subst hee
        exact hnodup'.1 hmem
    obtain ⟨hrec, hvrec⟩ := connect_dummy_true_in dummy rest
        ⟨G.left ++ [dummy], G.right, G.edges ++ [⟨dummy.name, c.name, 0, []⟩]⟩
        hval hcR' hdL' hdR hnew' hnodup'.2
    have hlist : (G.edges ++ [(⟨dummy.name, c.name, 0, []⟩ : PEdge)]) ++
        rest.map (fun c' => (⟨dummy.name, c'.name, 0, []⟩ : PEdge)) =
        G.edges ++ (c :: rest).map
          (fun c' => (⟨dummy.name, c'.name, 0, []⟩ : PEdge)) := by
      rw [List.append_assoc, List.map_cons]
      rfl
    constructor
    · have he' : connect_dummy true dummy (c :: rest) G =
          Except.ok ⟨G.left ++ [dummy], G.right,
            (G.edges ++ [(⟨dummy.name, c.name, 0, []⟩ : PEdge)]) ++
              rest.map (fun c' => (⟨dummy.name, c'.name, 0, []⟩ : PEdge))⟩ := by
        rw [hstep]
        exact hrec
      rw [hlist] at he'
      exact he'
    · have hv' : validG ⟨G.left ++ [dummy], G.right,
          (G.edges ++ [(⟨dummy.name, c.name, 0, []⟩ : PEdge)]) ++
            rest.map (fun c' => (⟨dummy.name, c'.name, 0, []⟩ : PEdge))⟩ := hvrec
      rw [hlist] at hv'
      exact hv'

/-- Unfolding the balancing loop when the graph is balanced. -/
theorem balance_loop_done (C : List PNode) (ld : Bool) (fuel : Nat)
    (names : List String) (G : BGraph) (hbal : is_balancedB G = true) :
    balance_loop C ld fuel names G = some (Except.ok G) := by
  cases fuel with
  | zero =>
    conv_lhs => unfold balance_loop
    rw [if_pos hbal]
  | succ fuel =>
    conv_lhs => unfold balance_loop
    rw [if_pos hbal]

/-- Unfolding the balancing loop on an unbalanced graph when the dummy
connection pass succeeds. -/
theorem balance_loop_step (C : List PNode) (ld : Bool) (fuel : Nat)
    (nm : String) (rest : List String) (G G' : BGraph)
    (hbal : is_balancedB G = false)
    (h : connect_dummy ld ⟨nm, []⟩ C G = Except.ok G') :
    balance_loop C ld (fuel + 1) (nm :: rest) G =
      balance_loop C ld fuel rest G' := by
  conv_lhs => unfold balance_loop
  rw [if_neg (by simp [hbal])]
  simp only [h]

set_option maxHeartbeats 1000000 in
/-- The balancing loop with the right side deficient by `fuel`: for a fresh
duplicate-free dummy-name supply it terminates normally, appending one dummy
node per missing slot to the right nodeset and a zero-weight edge from every
left node to each dummy. -/
theorem balance_loop_false_spec (C : List PNode) (fuel : Nat) :
    ∀ (names : List String) (G : BGraph),
      validG G → G.left = C →
      G.left.length = G.right.length + fuel →
      names.Nodup → fuel ≤ names.length →
      (∀ nm ∈ names, nm ∉ namesOf G.left ∧ nm ∉ namesOf G.right) →
      balance_loop C false fuel names G =
        some (Except.ok ⟨C,
          G.right ++ (names.take fuel).map (fun nm => ⟨nm, []⟩),
          G.edges ++ (names.take fuel).flatMap
            (fun nm => C.map (fun c => ⟨c.name, nm, 0, []⟩))⟩) ∧
      validG ⟨C,
          G.right ++ (names.take fuel).map (fun nm => ⟨nm, []⟩),
          G.edges ++ (names.take fuel).flatMap
            (fun nm => C.map (fun c => ⟨c.name, nm, 0, []⟩))⟩ := by
  induction fuel with
  | zero =>
    intro names G hG hleft hlen _ _ _
    have hbal : is_balancedB G = true := by
      unfold is_balancedB
      simp only [beq_iff_eq]
      omega
    have h0 : (⟨C, G.right ++ (names.take 0).map (fun nm => (⟨nm, []⟩ : PNode)),
        G.edges ++ (names.take 0).flatMap
          (fun nm => C.map (fun c => (⟨c.name, nm, 0, []⟩ : PEdge)))⟩ :
        BGraph) = G := by
      rw [← hleft]
      simp
    rw [h0]
    exact ⟨balance_loop_done C false 0 names G hbal, hG⟩
  | succ fuel ih =>
    intro names G hG hleft hlen hnodup hfuel hnames
    have hbal : is_balancedB G = false := by
      unfold is_balancedB
      simp only [beq_eq_false_iff_ne, ne_eq]
      omega
    cases names with
    | nil => exact absurd hfuel (by simp)
    | cons nm rest =>
      have hnmfresh := hnames nm (List.mem_cons_self nm rest)
      have hcL : ∀ c ∈ C, c.name ∈ namesOf G.left := by
        intro c hc
        rw [hleft]
        simp only [namesOf, List.mem_map]
        exact ⟨c, hc, rfl⟩
      have hnodupC : (C.map PNode.name).Nodup := by
        have h := hG.2.2.2
        rw [namesOf_append] at h
        have := List.Nodup.of_append_left h
        rwa [hleft] at this
      have hCne : C ≠ [] := by
        intro hx
        have hx0 : G.left.length = 0 := by rw [hleft, hx]; rfl
        omega
      obtain ⟨hconn₀, hval₀⟩ := connect_dummy_false_spec ⟨nm, []⟩ C G hG hcL
        hnmfresh.1 hnmfresh.2 hnodupC hCne
      have hconn : connect_dummy false ⟨nm, []⟩ C G =
          Except.ok ⟨G.left, G.right ++ [⟨nm, []⟩],
            G.edges ++ C.map (fun c => ⟨c.name, nm, 0, []⟩)⟩ := hconn₀
      have hval₁ : validG ⟨G.left, G.right ++ [⟨nm, []⟩],
          G.edges ++ C.map (fun c => ⟨c.name, nm, 0, []⟩)⟩ := hval₀
      have hstep := balance_loop_step C false fuel nm rest G
        ⟨G.left, G.right ++ [⟨nm, []⟩],
          G.edges ++ C.map (fun c => ⟨c.name, nm, 0, []⟩)⟩ hbal hconn
      have hnodup' : nm ∉ rest ∧ rest.Nodup := List.nodup_cons.mp hnodup
      have hfuel' : fuel ≤ rest.length := by
        have hlc : (nm :: rest).length = rest.length + 1 := rfl
        omega
      have hnames' : ∀ nm' ∈ rest,
          nm' ∉ namesOf (⟨G.left, G.right ++ [⟨nm, []⟩],
            G.edges ++ C.map (fun c => (⟨c.name, nm, 0, []⟩ : PEdge))⟩ :
              BGraph).left ∧
          nm' ∉ namesOf (⟨G.left, G.right ++ [⟨nm, []⟩],
            G.edges ++ C.map (fun c => (⟨c.name, nm, 0, []⟩ : PEdge))⟩ :
              BGraph).right := by
        intro nm' hm'
        have hn' := hnames nm' (List.mem_cons_of_mem nm hm')
        refine ⟨hn'.1, ?_⟩
        show nm' ∉ namesOf (G.right ++ [⟨nm, []⟩])
        rw [namesOf_append]
        intro hx
        rcases List.mem_append.mp hx with hx | hx
        · exact hn'.2 hx
        · have : nm' = nm := by simpa [namesOf] using hx
          exact hnodup'.1 (this ▸ hm')
      have hlen₁ : (⟨G.left, G.right ++ [⟨nm, []⟩],
          G.edges ++ C.map (fun c => (⟨c.name, nm, 0, []⟩ : PEdge))⟩ :
            BGraph).left.length =
          (⟨G.left, G.right ++ [⟨nm, []⟩],
          G.edges ++ C.map (fun c => (⟨c.name, nm, 0, []⟩ : PEdge))⟩ :
            BGraph).right.length + fuel := by
        show G.left.length = (G.right ++ [(⟨nm, []⟩ : PNode)]).length + fuel
        rw [List.length_append]
        simp
        omega
      obtain ⟨hrec, hvrec⟩ := ih rest
        ⟨G.left, G.right ++ [⟨nm, []⟩],
          G.edges ++ C.map (fun c => ⟨c.name, nm, 0, []⟩)⟩
        hval₁ hleft hlen₁ hnodup'.2 hfuel' hnames'
      have hR : (G.right ++ [(⟨nm, []⟩ : PNode)]) ++
          (rest.take fuel).map (fun nm' => (⟨nm', []⟩ : PNode)) =
          G.right ++ ((nm :: rest).take (fuel + 1)).map
            (fun nm' => (⟨nm', []⟩ : PNode)) := by
        rw [List.append_assoc, List.take_succ_cons, List.map_cons]
        rfl
      have hE : (G.edges ++ C.map (fun c => (⟨c.name, nm, 0, []⟩ : PEdge))) ++
          (rest.take fuel).flatMap
            (fun nm' => C.map (fun c => (⟨c.name, nm', 0, []⟩ : PEdge))) =
          G.edges ++ ((nm :: rest).take (fuel + 1)).flatMap
            (fun nm' => C.map (fun c => (⟨c.name, nm', 0, []⟩ : PEdge))) := by
        rw [List.append_assoc, List.take_succ_cons, List.flatMap_cons]
      constructor
      · have he' : balance_loop C false (fuel + 1) (nm :: rest) G =
            some (Except.ok ⟨C,
              (G.right ++ [(⟨nm, []⟩ : PNode)]) ++
                (rest.take fuel).map (fun nm' => (⟨nm', []⟩ : PNode)),
              (G.edges ++ C.map (fun c => (⟨c.name, nm, 0, []⟩ : PEdge))) ++
                (rest.take fuel).flatMap
                  (fun nm' => C.map (fun c => (⟨c.name, nm', 0, []⟩ : PEdge)))⟩) := by
          rw [hstep]
          exact hrec
        rw [hR, hE] at he'
        exact he'
      · have hv' : validG ⟨C,
            (G.right ++ [(⟨nm, []⟩ : PNode)]) ++
              (rest.take fuel).map (fun nm' => (⟨nm', []⟩ : PNode)),
            (G.edges ++ C.map (fun c => (⟨c.name, nm, 0, []⟩ : PEdge))) ++
              (rest.take fuel).flatMap
                (fun nm' => C.map (fun c => (⟨c.name, nm', 0, []⟩ : PEdge)))⟩ := hvrec
        rw [hR, hE] at hv'
        exact hv'

set_option maxHeartbeats 1000000 in
/-- The balancing loop with the left side deficient by `fuel`: for a fresh
duplicate-free dummy-name supply it terminates normally, appending one dummy
node per missing slot to the left nodeset and a zero-weight edge from each
dummy to every right node. -/
theorem balance_loop_true_spec (C : List PNode) (fuel : Nat) :
    ∀ (names : List String) (G : BGraph),
      validG G → G.right = C →
      G.right.length = G.left.length + fuel →
      names.Nodup → fuel ≤ names.length →
      (∀ nm ∈ names, nm ∉ namesOf G.left ∧ nm ∉ namesOf G.right) →
      balance_loop C true fuel names G =
        some (Except.ok ⟨
          G.left ++ (names.take fuel).map (fun nm => ⟨nm, []⟩), C,
          G.edges ++ (names.take fuel).flatMap
            (fun nm => C.map (fun c => ⟨nm, c.name, 0, []⟩))⟩) ∧
      validG ⟨
          G.left ++ (names.take fuel).map (fun nm => ⟨nm, []⟩), C,
          G.edges ++ (names.take fuel).flatMap
            (fun nm => C.map (fun c => ⟨nm, c.name, 0, []⟩))⟩ := by
  induction fuel with
  | zero =>
    intro names G hG hright hlen _ _ _
    have hbal : is_balancedB G = true := by
      unfold is_balancedB
      simp only [beq_iff_eq]
      omega
    have h0 : (⟨G.left ++ (names.take 0).map (fun nm => (⟨nm, []⟩ : PNode)), C,
        G.edges ++ (names.take 0).flatMap
          (fun nm => C.map (fun c => (⟨nm, c.name, 0, []⟩ : PEdge)))⟩ :
        BGraph) = G := by
      rw [← hright]
      simp
    rw [h0]
    exact ⟨balance_loop_done C true 0 names G hbal, hG⟩
  | succ fuel ih =>
    intro names G hG hright hlen hnodup hfuel hnames
    have hbal : is_balancedB G = false := by
      unfold is_balancedB
      simp only [beq_eq_false_iff_ne, ne_eq]
      omega
    cases names with
    | nil => exact absurd hfuel (by simp)
    | cons nm rest =>
      have hnmfresh := hnames nm (List.mem_cons_self nm rest)
      have hcR : ∀ c ∈ C, c.name ∈ namesOf G.right := by
        intro c hc
        rw [hright]
        simp only [namesOf, List.mem_map]
        exact ⟨c, hc, rfl⟩
      have hnodupC : (C.map PNode.name).Nodup := by
        have h := hG.2.2.2
        rw [namesOf_append] at h
        have := List.Nodup.of_append_right h
        rwa [hright] at this
      have hCne : C ≠ [] := by
        intro hx
        have hx0 : G.right.length = 0 := by rw [hright, hx]; rfl
        omega
      obtain ⟨hconn₀, hval₀⟩ := connect_dummy_true_spec ⟨nm, []⟩ C G hG hcR
        hnmfresh.1 hnmfresh.2 hnodupC hCne
      have hconn : connect_dummy true ⟨nm, []⟩ C G =
          Except.ok ⟨G.left ++ [⟨nm, []⟩], G.right,
            G.edges ++ C.map (fun c => ⟨nm, c.name, 0, []⟩)⟩ := hconn₀
      have hval₁ : validG ⟨G.left ++ [⟨nm, []⟩], G.right,
          G.edges ++ C.map (fun c => ⟨nm, c.name, 0, []⟩)⟩ := hval₀
      have hstep := balance_loop_step C true fuel nm rest G
        ⟨G.left ++ [⟨nm, []⟩], G.right,
          G.edges ++ C.map (fun c => ⟨nm, c.name, 0, []⟩)⟩ hbal hconn
      have hnodup' : nm ∉ rest ∧ rest.Nodup := List.nodup_cons.mp hnodup
      have hfuel' : fuel ≤ rest.length := by
        have hlc : (nm :: rest).length = rest.length + 1 := rfl
        omega
      have hnames' : ∀ nm' ∈ rest,
          nm' ∉ namesOf (⟨G.left ++ [⟨nm, []⟩], G.right,
            G.edges ++ C.map (fun c => (⟨nm, c.name, 0, []⟩ : PEdge))⟩ :
              BGraph).left ∧
          nm' ∉ namesOf (⟨G.left ++ [⟨nm, []⟩], G.right,
            G.edges ++ C.map (fun c => (⟨nm, c.name, 0, []⟩ : PEdge))⟩ :
              BGraph).right := by
        intro nm' hm'
        have hn' := hnames nm' (List.mem_cons_of_mem nm hm')
        refine ⟨?_, hn'.2⟩
        show nm' ∉ namesOf (G.left ++ [⟨nm, []⟩])
        rw [namesOf_append]
        intro hx
        rcases List.mem_append.mp hx with hx | hx
        · exact hn'.1 hx
        · have : nm' = nm := by simpa [namesOf] using hx
          exact hnodup'.1 (this ▸ hm')
      have hlen₁ : (⟨G.left ++ [⟨nm, []⟩], G.right,
          G.edges ++ C.map (fun c => (⟨nm, c.name, 0, []⟩ : PEdge))⟩ :
            BGraph).right.length =
          (⟨G.left ++ [⟨nm, []⟩], G.right,
          G.edges ++ C.map (fun c => (⟨nm, c.name, 0, []⟩ : PEdge))⟩ :
            BGraph).left.length + fuel := by
        show G.right.length = (G.left ++ [(⟨nm, []⟩ : PNode)]).length + fuel
        rw [List.length_append]
        simp
        omega
      obtain ⟨hrec, hvrec⟩ := ih rest
        ⟨G.left ++ [⟨nm, []⟩], G.right,
          G.edges ++ C.map (fun c => ⟨nm, c.name, 0, []⟩)⟩
        hval₁ hright hlen₁ hnodup'.2 hfuel' hnames'
      have hL : (G.left ++ [(⟨nm, []⟩ : PNode)]) ++
          (rest.take fuel).map (fun nm' => (⟨nm', []⟩ : PNode)) =
          G.left ++ ((nm :: rest).take (fuel + 1)).map
            (fun nm' => (⟨nm', []⟩ : PNode)) := by
        rw [List.append_assoc, List.take_succ_cons, List.map_cons]
        rfl
      have hE : (G.edges ++ C.map (fun c => (⟨nm, c.name, 0, []⟩ : PEdge))) ++
          (rest.take fuel).flatMap
            (fun nm' => C.map (fun c => (⟨nm', c.name, 0, []⟩ : PEdge))) =
          G.edges ++ ((nm :: rest).take (fuel + 1)).flatMap
            (fun nm' => C.map (fun c => (⟨nm', c.name, 0, []⟩ : PEdge))) := by
        rw [List.append_assoc, List.take_succ_cons, List.flatMap_cons]
      constructor
      · have he' : balance_loop C true (fuel + 1) (nm :: rest) G =
            some (Except.ok ⟨
              (G.left ++ [(⟨nm, []⟩ : PNode)]) ++
                (rest.take fuel).map (fun nm' => (⟨nm', []⟩ : PNode)), C,
              (G.edges ++ C.map (fun c => (⟨nm, c.name, 0, []⟩ : PEdge))) ++
                (rest.take fuel).flatMap
                  (fun nm' => C.map (fun c => (⟨nm', c.name, 0, []⟩ : PEdge)))⟩) := by
          rw [hstep]
          exact hrec
        rw [hL, hE] at he'
        exact he'
      · have hv' : validG ⟨
            (G.left ++ [(⟨nm, []⟩ : PNode)]) ++
              (rest.take fuel).map (fun nm' => (⟨nm', []⟩ : PNode)), C,
            (G.edges ++ C.map (fun c => (⟨nm, c.name, 0, []⟩ : PEdge))) ++
              (rest.take fuel).flatMap
                (fun nm' => C.map (fun c => (⟨nm', c.name, 0, []⟩ : PEdge)))⟩ := hvrec
        rw [hL, hE] at hv'
        exact hv'


/-! ### The assignment-problem pipeline (MaximumCardinalityMatching.py,
KuhnMunkres.py, MinimumVertexCover.py, DepthFirstTraversal.py,
EdmondsKarp.py, GraphProcessing.py)

Python set and dict iteration is determinized to insertion order, as in the
rest of this development: set.pop() takes the first element in insertion
order, a.symmetric_difference(b) lists the a-part first, and set unions
append the new elements. Code paths on which CPython would raise
(min() over an empty set, set.pop() from an empty set) return none. -/

/-- node.set_attribute_value / add_attribute. -/
def setAttr (n : PNode) (k : String) (v : AVal) : PNode :=
  ⟨n.name, assocSet n.attrs k v⟩

/-- BipartiteGraph.add_node_attributes: deep copy, then add the pair to
every node's registry. -/
def add_node_attributes (G : BGraph) (k : String) (v : AVal) : BGraph :=
  let Gp := deepcopyG G
  ⟨Gp.left.map (fun n => setAttr n k v), Gp.right.map (fun n => setAttr n k v),
    Gp.edges⟩

/-- BipartiteGraph.add_edge_attributes: deep copy, then add the pair to
every edge's registry. -/
def add_edge_attributes (G : BGraph) (k : String) (v : AVal) : BGraph :=
  let Gp := deepcopyG G
  ⟨Gp.left, Gp.right,
    Gp.edges.map (fun e => ⟨e.src, e.dst, e.weight, assocSet e.attrs k v⟩)⟩

/-- Preprocessing.remove_disconnected_nodes (same code in
AssignmentProblem): keep the nodes with at least one incident edge; the
kept node objects retain their edge wiring, so the edge list is unchanged
(every endpoint of an edge is incident to that edge and survives). -/
def remove_disconnected_nodes (G : BGraph) : BGraph :=
  ⟨G.left.filter (fun nd => incidentCount G nd.name != 0),
    G.right.filter (fun nd => incidentCount G nd.name != 0), G.edges⟩

/-- Preprocessing.modify_graph with reverse_matched_directed_edge: deep
copy, then for each matched pair in order swap the stored direction of the
edge joining it. -/
def modify_graph_reverse (G : BGraph) (matching : List (String × String)) :
    BGraph :=
  let Gp := deepcopyG G
  ⟨Gp.left, Gp.right,
    matching.foldl (fun es p => es.map (fun e =>
      if e.src == p.1 && e.dst == p.2 then ⟨e.dst, e.src, e.weight, e.attrs⟩
      else e)) Gp.edges⟩

/-- Preprocessing.modify_graph with update_matched_attributes: deep copy,
then set the "Matched" attribute of the two endpoints and the edge of every
matched pair actually joined by an edge. -/
def modify_graph_mark (G : BGraph) (matching : List (String × String)) :
    BGraph :=
  let Gp := deepcopyG G
  ⟨Gp.left.map (fun nd =>
      if matching.any (fun p => p.1 == nd.name &&
          Gp.edges.any (fun e => e.src == p.1 && e.dst == p.2))
        then setAttr nd "Matched" (.bb true) else nd),
    Gp.right.map (fun nd =>
      if matching.any (fun p => p.2 == nd.name &&
          Gp.edges.any (fun e => e.src == p.1 && e.dst == p.2))
        then setAttr nd "Matched" (.bb true) else nd),
    Gp.edges.map (fun e =>
      if matching.contains (e.src, e.dst)
        then ⟨e.src, e.dst, e.weight, assocSet e.attrs "Matched" (.bb true)⟩
        else e)⟩

/-- The weight-flattening loop of the augmenting-path routines: every edge
weight is set to the dummy weight 0. -/
def set_weights_zero (G : BGraph) : BGraph :=
  ⟨G.left, G.right, G.edges.map (fun e => ⟨e.src, e.dst, 0, e.attrs⟩)⟩

/-- GraphProcessing.bipartite_to_dictionary_form: adjacency dictionary,
keyed by the nodes in left-then-right order, each key mapping to its
outgoing edges' (terminal name, weight) pairs in edge order. -/
def bipartite_to_dictionary_form (G : BGraph) : WGraph :=
  (G.left ++ G.right).map (fun nd =>
    (nd.name, (outgoingOf G nd.name).map (fun e => (e.dst, e.weight))))

def SOURCE_NODE : String := "Source Node"

def SINK_NODE : String := "Sink Node"

/-- MaximumCardinalityMatching.__add_source_sink_nodes: dictionary form,
plus a source key joined to every unmatched left node and a sink entry
appended to every unmatched right node's inner dictionary. -/
def add_source_sink_nodes (G : BGraph) (matching : List (String × String)) :
    WGraph :=
  (G.left ++ G.right).map (fun nd =>
    (nd.name,
      (outgoingOf G nd.name).map (fun e => (e.dst, e.weight)) ++
        (if memName nd.name G.right &&
            !(matching.map Prod.snd).contains nd.name
          then [(SINK_NODE, (0 : Int))] else []))) ++
  [(SOURCE_NODE,
    (G.left.filter (fun nd => !(matching.map Prod.fst).contains nd.name)).map
      (fun nd => (nd.name, (0 : Int)))),
    (SINK_NODE, [])]

/-- The predecessor-map traceback loop shared by the augmenting-path
routines, in append order: a missing key clears the accumulated path, and a
None predecessor leads to the missing-key clear on the following turn. -/
def traceback (prev : PrevMap) (source : String) :
    Nat → String → List (String × String) → List (String × String)
  | 0, _, acc => acc
  | fuel + 1, current, acc =>
    if current == source then acc
    else match lookupOpt prev current with
      | none => []
      | some none => []
      | some (some p) => traceback prev source fuel p (acc ++ [(p, current)])

/-- MaximumCardinalityMatching.compute_augmenting_path: reverse the matched
edges, flatten the weights, attach source and sink, run Dijkstra from the
source, trace back from the sink, clip off the two end pairs and reverse. -/
def compute_augmenting_path (G : BGraph)
    (matching : List (String × String)) : List (String × String) :=
  let Gr := set_weights_zero (modify_graph_reverse G matching)
  let gd := add_source_sink_nodes Gr matching
  let dp := one_to_many gd SOURCE_NODE
  let tb := traceback dp.2 SOURCE_NODE (gd.length + 1) SINK_NODE []
  ((tb.drop 1).dropLast).reverse

/-- Python set.symmetric_difference, in a-then-b insertion order. -/
def symmetric_difference (a b : List (String × String)) :
    List (String × String) :=
  a.filter (fun p => !b.contains p) ++ b.filter (fun p => !a.contains p)

/-- The while-True loop of MaximumCardinalityMatching.apply, with fuel. -/
def MCM_loop : Nat → BGraph → List (String × String) →
    Option (List (String × String))
  | 0, _, _ => none
  | fuel + 1, Gp, cur =>
    let path := postprocess_augmenting_path (compute_augmenting_path Gp cur)
    if path.isEmpty then some cur
    else
      let cur' := symmetric_difference cur path.dedup
      MCM_loop fuel (modify_graph_mark Gp cur') cur'

/-- MaximumCardinalityMatching.apply. -/
def MaximumCardinalityMatching_apply (G : BGraph)
    (initial : List (String × String)) (fuel : Nat) :
    Option (List (String × String)) :=
  MCM_loop fuel
    (add_edge_attributes (add_node_attributes G "Matched" (.bb false))
      "Matched" (.bb false)) initial

/-- KuhnMunkres.__preprocess_weights: deep copy, then subtract from each
left node's outgoing edges the minimum of their weights, then from each
right node's incoming edges the minimum of their (already row-reduced)
weights. Each edge has a unique source and a unique terminal, so the two
passes act on the edges independently within each pass. -/
def preprocess_weights (G : BGraph) : BGraph :=
  let Gp := deepcopyG G
  let G1 : BGraph := ⟨Gp.left, Gp.right, Gp.edges.map (fun e =>
    if memName e.src Gp.left then
      match ((outgoingOf Gp e.src).map PEdge.weight).min? with
      | some m => ⟨e.src, e.dst, e.weight - m, e.attrs⟩
      | none => e
    else e)⟩
  ⟨G1.left, G1.right, G1.edges.map (fun e =>
    if memName e.dst G1.right then
      match ((incomingOf G1 e.dst).map PEdge.weight).min? with
      | some m => ⟨e.src, e.dst, e.weight - m, e.attrs⟩
      | none => e
    else e)⟩

/-- KuhnMunkres.__extract_zero_weight_subgraph. -/
def extract_zero_weight_subgraph (G : BGraph) : BGraph :=
  extract_edge_induced_subgraph G (fun e => e.weight == 0)

/-- DepthFirstTraversal.__depth_first_search_recursive_helper: the set of
node names reached from a node along outgoing edges, in visit order; the
fuel bounds the recursion depth and exceeds any simple path length in
use. -/
def dfs_visit (G : BGraph) : Nat → List String → String → List String
  | 0, vis, _ => vis
  | fuel + 1, vis, n =>
    if vis.contains n then vis
    else (outgoingOf G n).foldl (fun v e => dfs_visit G fuel v e.dst)
      (vis ++ [n])

/-- MinimumVertexCover.apply: reverse the matched edges, run a depth-first
traversal from every exposed left node collecting the visited names into L,
and return (left names not in L) followed by (right names in L). -/
def MinimumVertexCover_apply (G : BGraph)
    (matching : List (String × String)) : List String :=
  let Gr := modify_graph_reverse G matching
  let matchedL := matching.map Prod.fst
  let nFuel := Gr.left.length + Gr.right.length + 1
  let L := (Gr.left.filter (fun nd => !matchedL.contains nd.name)).foldl
    (fun L nd =>
      L ++ (dfs_visit Gr nFuel [] nd.name).filter (fun v => !L.contains v))
    []
  (namesOf G.left).filter (fun n => !L.contains n) ++
    (namesOf G.right).filter (fun n => L.contains n)

/-- KuhnMunkres.__adjust_weights: delta is the minimum weight over the
edges with both endpoints outside the cover (none models the crash on an
empty minimum); edges inside the cover on both sides gain delta, edges
outside on both sides lose delta. -/
def adjust_weights (G : BGraph) (mvc : List String) : Option BGraph :=
  let Gp := deepcopyG G
  match ((Gp.edges.filter (fun e =>
      !mvc.contains e.src && !mvc.contains e.dst)).map PEdge.weight).min? with
  | none => none
  | some delta => some ⟨Gp.left, Gp.right, Gp.edges.map (fun e =>
      if mvc.contains e.src && mvc.contains e.dst then
        ⟨e.src, e.dst, e.weight + delta, e.attrs⟩
      else if !mvc.contains e.src && !mvc.contains e.dst then
        ⟨e.src, e.dst, e.weight - delta, e.attrs⟩
      else e)⟩

/-- Python's substring test (needle in haystack) on character lists. -/
def containsSub (needle : List Char) : List Char → Bool
  | [] => needle.isEmpty
  | c :: t => needle.isPrefixOf (c :: t) || containsSub needle t

/-- AssignmentProblem.postprocess_maximum_matching (same code in
KuhnMunkres): drop the pairs in which either name contains the substring
"Dummy Node". -/
def postprocess_maximum_matching (m : List (String × String)) :
    List (String × String) :=
  (m.filter (fun p => !containsSub ("Dummy Node".toList) p.1.toList &&
    !containsSub ("Dummy Node".toList) p.2.toList)).dedup

/-- The while-True loop of KuhnMunkres.apply, with fuel. -/
def KM_loop (mcmFuel : Nat) : Nat → BGraph → List (String × String) →
    Option (List (String × String))
  | 0, _, _ => none
  | fuel + 1, Gp, m =>
    let G0 := extract_zero_weight_subgraph Gp
    match MaximumCardinalityMatching_apply G0 m mcmFuel with
    | none => none
    | some m' =>
      if is_perfect Gp m' then some m'
      else match adjust_weights Gp (MinimumVertexCover_apply G0 m') with
        | none => none
        | some Gp' => KM_loop mcmFuel fuel Gp' m'

/-- KuhnMunkres.apply: prune disconnected nodes, balance (with the explicit
dummy-name supply), row/column-reduce the weights, then iterate
zero-subgraph maximum matchings until perfect, and strip dummy pairs. -/
def KuhnMunkres_apply (G : BGraph) (balNames : List String)
    (balFuel kmFuel mcmFuel : Nat) : Option (List (String × String)) :=
  match construct_balanced_equivalent (remove_disconnected_nodes G)
      balNames balFuel with
  | some (Except.ok Gb) =>
    match KM_loop mcmFuel kmFuel (preprocess_weights Gb) [] with
    | some m => some (postprocess_maximum_matching m)
    | none => none
  | _ => none

/-- The vertex label stored in a node's attribute registry. -/
def nodeLabel (nd : PNode) : Int :=
  match lookupOpt nd.attrs "Label" with
  | some (.ib i) => i
  | _ => 0

/-- The vertex label of the named node of a graph. -/
def labelOf (G : BGraph) (n : String) : Int :=
  match (G.left ++ G.right).find? (fun nd => nd.name == n) with
  | some nd => nodeLabel nd
  | none => 0

/-- Pointwise attribute update of the named node inside a nodeset. -/
def set_node_attr (l : List PNode) (n k : String) (v : AVal) :
    List PNode :=
  l.map (fun nd => if nd.name == n then setAttr nd k v else nd)

/-- EdmondsKarp.__create_initial_vertex_labeling: label every node 0, then
walk the edge list and, whenever an edge is infeasible under the current
labels, relabel its source with the edge weight and its terminal with 0. -/
def create_initial_vertex_labeling (G : BGraph) : BGraph :=
  let G1 := add_node_attributes G "Label" (.ib 0)
  (getEdges G1).foldl (fun Gc e =>
    if labelOf Gc e.src + labelOf Gc e.dst >= e.weight then Gc
    else ⟨set_node_attr (set_node_attr Gc.left e.src "Label" (.ib e.weight))
        e.dst "Label" (.ib 0),
      set_node_attr (set_node_attr Gc.right e.src "Label" (.ib e.weight))
        e.dst "Label" (.ib 0),
      Gc.edges⟩) G1

/-- EdmondsKarp.__construct_equality_subgraph: the subgraph induced by the
edges whose weight equals the sum of its endpoint labels. -/
def construct_equality_subgraph (G : BGraph) : BGraph :=
  extract_edge_induced_subgraph G
    (fun e => labelOf G e.src + labelOf G e.dst == e.weight)

/-- EdmondsKarp.__select_arbitrary_exposed_vertex: the first left node, or
the first left node whose name is not a matched source name; none when no
exposed vertex exists (the Python returns None and the caller crashes). -/
def select_exposed (G : BGraph) (matching : List (String × String)) :
    Option PNode :=
  if matching.isEmpty then G.left.head?
  else (G.left.filter
    (fun nd => !(matching.map Prod.fst).contains nd.name)).head?

/-- EdmondsKarp.__compute_joint_neighborhood: the terminal names of the
outgoing edges of the named nodes, deduplicated in first-visit order. -/
def joint_neighborhood (G : BGraph) (S : List String) : List String :=
  (S.flatMap (fun n => (outgoingOf G n).map (fun e => e.dst))).dedup

/-- Equality of two name collections as Python sets. -/
def sameSetStr (a b : List String) : Bool :=
  a.all (fun x => b.contains x) && b.all (fun x => a.contains x)

/-- EdmondsKarp.__compute_delta: minimum label slack over the edges from S
to the right names outside T; none models min() over an empty set. -/
def compute_delta (G : BGraph) (S T : List String) : Option Int :=
  ((G.edges.filter (fun e => S.contains e.src &&
      (namesOf G.right).contains e.dst && !(T.contains e.dst))).map
    (fun e => labelOf G e.src + labelOf G e.dst - e.weight)).min?

/-- EdmondsKarp.__adjust_labeling: deep copy, then lower the labels of S by
delta and raise the labels of T by delta. -/
def adjust_labeling (G : BGraph) (S T : List String) : Option BGraph :=
  let Gp := deepcopyG G
  match compute_delta Gp S T with
  | none => none
  | some d => some
      ⟨Gp.left.map (fun nd =>
          if S.contains nd.name then setAttr nd "Label" (.ib (nodeLabel nd - d))
          else if T.contains nd.name then
            setAttr nd "Label" (.ib (nodeLabel nd + d))
          else nd),
        Gp.right.map (fun nd =>
          if S.contains nd.name then setAttr nd "Label" (.ib (nodeLabel nd - d))
          else if T.contains nd.name then
            setAttr nd "Label" (.ib (nodeLabel nd + d))
          else nd),
        Gp.edges⟩

/-- The "Matched" attribute of the named node. -/
def nodeMatchedB (G : BGraph) (n : String) : Bool :=
  match (G.left ++ G.right).find? (fun nd => nd.name == n) with
  | some nd => match lookupOpt nd.attrs "Matched" with
    | some (.bb b) => b
    | _ => false
  | none => false

/-- EdmondsKarp.__compute_augmenting_path: reverse the matched edges,
flatten the weights, convert to dictionary form, run Dijkstra from the
root, trace back from the leaf and reverse (no clipping here). -/
def EK_compute_augmenting_path (G : BGraph)
    (matching : List (String × String)) (source sink : String) :
    List (String × String) :=
  let Gr := set_weights_zero (modify_graph_reverse G matching)
  let gd := bipartite_to_dictionary_form Gr
  let dp := one_to_many gd source
  (traceback dp.2 source (gd.length + 1) sink []).reverse

/-- Python set.add on an insertion-ordered collection. -/
def insertStr (l : List String) (x : String) : List String :=
  if l.contains x then l else l ++ [x]

/-- The inner while-True loop of EdmondsKarp.apply, with fuel. The state
carries the working graph, the equality subgraph, the (possibly stale)
joint neighborhood, the alternating-tree sets S and T and the matching; it
returns the updated graph and matching when an augmentation breaks the
loop. -/
def EK_inner (root : String) :
    Nat → BGraph → BGraph → List String → List String → List String →
      List (String × String) → Option (BGraph × List (String × String))
  | 0, _, _, _, _, _, _ => none
  | fuel + 1, Gp, Geq, N, S, T, m =>
    let step :=
      if sameSetStr T N then
        match adjust_labeling Gp S T with
        | none => none
        | some Gp' =>
          let Geq' := construct_equality_subgraph Gp'
          some (Gp', Geq', joint_neighborhood Geq' S)
      else some (Gp, Geq, N)
    match step with
    | none => none
    | some (Gp', Geq', N') =>
      match (N'.filter (fun n => !T.contains n)).head? with
      | none => none
      | some leaf =>
        if !nodeMatchedB Geq' leaf then
          let path := postprocess_augmenting_path
            (EK_compute_augmenting_path Geq' m root leaf)
          let m' := symmetric_difference m path.dedup
          some (modify_graph_mark Gp' m', m')
        else
          match ((m.filter (fun p => p.2 == leaf)).map Prod.fst).head? with
          | none => none
          | some s => EK_inner root fuel Gp' Geq' N' (insertStr S s)
              (insertStr T leaf) m

/-- The outer while loop of EdmondsKarp.apply, with fuel. -/
def EK_outer (innerFuel : Nat) : Nat → BGraph →
    List (String × String) → Option (List (String × String))
  | 0, _, _ => none
  | fuel + 1, Gp, m =>
    if is_perfect Gp m then some m
    else match select_exposed Gp m with
      | none => none
      | some root =>
        let Geq := construct_equality_subgraph Gp
        match EK_inner root.name innerFuel Gp Geq
            (joint_neighborhood Geq [root.name]) [root.name] [] m with
        | none => none
        | some (Gp', m') => EK_outer innerFuel fuel Gp' m'

/-- EdmondsKarp.apply: prune disconnected nodes, balance (with the explicit
dummy-name supply), create the initial feasible labeling, initialize the
matching attributes, grow alternating trees until the matching is perfect,
and strip dummy pairs. -/
def EdmondsKarp_apply (G : BGraph) (balNames : List String)
    (balFuel outerFuel innerFuel : Nat) :
    Option (List (String × String)) :=
  match construct_balanced_equivalent (remove_disconnected_nodes G)
      balNames balFuel with
  | some (Except.ok Gb) =>
    let Gp := add_edge_attributes
      (add_node_attributes (create_initial_vertex_labeling Gb)
        "Matched" (.bb false)) "Matched" (.bb false)
    match EK_outer innerFuel outerFuel Gp [] with
    | some m => some (postprocess_maximum_matching m)
    | none => none
  | _ => none

/-- The total graph weight of a matching's pairs. -/
def matching_weight (G : BGraph) (m : List (String × String)) : Int :=
  (m.map (fun p =>
    match G.edges.find? (fun e => e.src == p.1 && e.dst == p.2) with
    | some e => e.weight
    | none => 0)).sum

/-- The concrete scenario graph: left A and B, right X and Y, edge weights
A-X 1, A-Y 2, B-X 3, B-Y 4. -/
def C2Graph : BGraph :=
  ⟨[⟨"A", []⟩, ⟨"B", []⟩], [⟨"X", []⟩, ⟨"Y", []⟩],
    [⟨"A", "X", 1, []⟩, ⟨"A", "Y", 2, []⟩, ⟨"B", "X", 3, []⟩,
      ⟨"B", "Y", 4, []⟩]⟩


/-- Lookup after a dict assignment: the assigned key reads the new value,
every other key is unaffected. -/
theorem lookupD_assocSet {β : Type} (l : List (String × β)) (k k' : String)
    (v : β) (d : β) :
    lookupD (assocSet l k v) k' d = if k = k' then v else lookupD l k' d := by
  induction l with
  | nil => rfl
  | cons p t ih =>
    obtain ⟨a, b⟩ := p
    by_cases h : a = k
    · subst h
      by_cases h' : a = k' <;> simp [assocSet, lookupD, h']
    · by_cases h' : a = k'
      · subst h'
        simp [assocSet, lookupD, h, Ne.symm h]
      · simp [assocSet, lookupD, h, h', ih]

/-- Option-valued lookup after a dict assignment. -/
theorem lookupOpt_cons {β : Type} (a : String) (b : β)
    (t : List (String × β)) (k : String) :
    lookupOpt ((a, b) :: t) k =
      if a = k then some b else lookupOpt t k := by
  by_cases h : a = k
  · have hb : ((a, b).1 == k) = true := by simpa using h
    simp [lookupOpt, List.find?, hb, h]
  · have hb : ((a, b).1 == k) = false := by simpa using h
    simp only [lookupOpt, List.find?, hb, if_neg h]

theorem lookupOpt_assocSet {β : Type} (l : List (String × β)) (k k' : String)
    (v : β) :
    lookupOpt (assocSet l k v) k' =
      if k = k' then some v else lookupOpt l k' := by
  induction l with
  | nil =>
    show lookupOpt [(k, v)] k' = _
    rw [lookupOpt_cons]
  | cons p t ih =>
    obtain ⟨a, b⟩ := p
    by_cases h : a = k
    · subst h
      show lookupOpt (if a = a then (a, v) :: t else _) k' = _
      rw [if_pos rfl, lookupOpt_cons, lookupOpt_cons]
      by_cases h' : a = k' <;> simp [h']
    · show lookupOpt (if a = k then _ else (a, b) :: assocSet t k v) k' = _
      rw [if_neg h, lookupOpt_cons, ih, lookupOpt_cons]
      by_cases h' : a = k'
      · subst h'
        rw [if_pos rfl, if_neg (fun hx => h hx.symm), if_pos rfl]
      · rw [if_neg h']
        by_cases h2 : k = k'
        · rw [if_pos h2, if_pos h2]
        · rw [if_neg h2, if_neg h2, if_neg h']

/-- A lookup whose every candidate value is the default returns the
default. -/
theorem lookupD_const {β : Type} (l : List (String × β)) (k : String)
    (d : β) (h : ∀ p ∈ l, p.1 = k → p.2 = d) : lookupD l k d = d := by
  induction l with
  | nil => rfl
  | cons p t ih =>
    obtain ⟨a, b⟩ := p
    show (if a = k then b else lookupD t k d) = d
    by_cases ha : a = k
    · rw [if_pos ha]
      exact h (a, b) (List.mem_cons_self _ _) ha
    · rw [if_neg ha]
      exact ih (fun q hq => h q (List.mem_cons_of_mem _ hq))

/-- A successful option-valued lookup returns the value of a present
binding of the key. -/
theorem lookupOpt_mem {β : Type} {l : List (String × β)} {k : String}
    {w : β} (h : lookupOpt l k = some w) : ∃ p ∈ l, p.1 = k ∧ p.2 = w := by
  unfold lookupOpt at h
  cases hf : l.find? (fun p => p.1 == k) with
  | none => rw [hf] at h; exact absurd h (by simp)
  | some p =>
    rw [hf] at h
    refine ⟨p, List.mem_of_find?_eq_some hf, ?_, ?_⟩
    · have := List.find?_some hf
      simpa using this
    · simpa using h

/-- A lookup skips a prefix none of whose keys match. -/
theorem lookupD_append_skip {β : Type} (l₁ l₂ : List (String × β))
    (k : String) (d : β) (h : ∀ p ∈ l₁, p.1 ≠ k) :
    lookupD (l₁ ++ l₂) k d = lookupD l₂ k d := by
  induction l₁ with
  | nil => rfl
  | cons p t ih =>
    obtain ⟨a, b⟩ := p
    show (if a = k then b else lookupD (t ++ l₂) k d) = _
    rw [if_neg (h (a, b) (List.mem_cons_self _ _))]
    exact ih (fun q hq => h q (List.mem_cons_of_mem _ hq))

/-- The invariant carried through Dijkstra's run on the edgeless
source/sink graph: every node other than the source and the left nodes is
still at infinite distance, and the sink has no recorded predecessor. -/
def dinv (leftN : List String) (dp : DistMap × PrevMap) : Prop :=
  (∀ n, n ≠ SOURCE_NODE → n ∉ leftN → lookupD dp.1 n none = none) ∧
  (∀ s, lookupOpt dp.2 SINK_NODE ≠ some (some s))

/-- One relaxation pass preserves the invariant: either every relaxed
neighbor is a left node, or the relaxing node itself is still at infinite
distance so nothing updates. -/
theorem relax_preserves (leftN : List String)
    (hsinkL : SINK_NODE ∉ leftN) (current : String) :
    ∀ (nbrs : List (String × Int)) (dp : DistMap × PrevMap),
      ((∀ p ∈ nbrs, p.1 ∈ leftN) ∨
        (current ≠ SOURCE_NODE ∧ current ∉ leftN)) →
      dinv leftN dp → dinv leftN (relax current nbrs dp) := by
  intro nbrs
  induction nbrs with
  | nil => intro dp _ h; exact h
  | cons nb rest ih =>
    intro dp hcase h
    show dinv leftN (relax current rest
      (if optLt (optAddW (lookupD dp.1 current none) nb.2)
          (lookupD dp.1 nb.1 none) then
        (assocSet dp.1 nb.1 (optAddW (lookupD dp.1 current none) nb.2),
          assocSet dp.2 nb.1 (some current))
      else dp))
    have hrest : ((∀ p ∈ rest, p.1 ∈ leftN) ∨
        (current ≠ SOURCE_NODE ∧ current ∉ leftN)) := by
      rcases hcase with h1 | h2
      · exact Or.inl (fun p hp => h1 p (List.mem_cons_of_mem _ hp))
      · exact Or.inr h2
    by_cases hc : optLt (optAddW (lookupD dp.1 current none) nb.2)
        (lookupD dp.1 nb.1 none) = true
    · rw [if_pos hc]
      have hnbL : nb.1 ∈ leftN := by
        rcases hcase with h1 | h2
        · exact h1 nb (List.mem_cons_self _ _)
        · have hcd : lookupD dp.1 current none = none := h.1 current h2.1 h2.2
          rw [hcd] at hc
          exact absurd hc (by simp [optAddW, optLt])
      refine ih _ hrest ⟨?_, ?_⟩
      · intro n hns hnl
        rw [lookupD_assocSet]
        rw [if_neg (by intro hx; exact hnl (hx ▸ hnbL))]
        exact h.1 n hns hnl
      · intro s
        rw [lookupOpt_assocSet]
        rw [if_neg (by intro hx; exact hsinkL (hx ▸ hnbL))]
        exact h.2 s
    · rw [if_neg hc]
      exact ih _ hrest h

/-- The Dijkstra loop preserves the invariant whenever the graph only ever
relaxes into left nodes from the source or from left nodes. -/
theorem dijkstra_loop_preserves (g : WGraph) (leftN : List String)
    (hsinkL : SINK_NODE ∉ leftN)
    (hg : ∀ c, (∀ p ∈ lookupD g c [], p.1 ∈ leftN) ∨
      (c ≠ SOURCE_NODE ∧ c ∉ leftN)) :
    ∀ (fuel : Nat) (Q : List String) (dp : DistMap × PrevMap),
      dinv leftN dp → dinv leftN (dijkstra_loop g fuel Q dp) := by
  intro fuel
  induction fuel with
  | zero => intro Q dp h; exact h
  | succ f ih =>
    intro Q dp h
    unfold dijkstra_loop
    by_cases hq : Q.isEmpty = true
    · rw [if_pos hq]
      exact h
    · rw [if_neg hq]
      cases hdm : determine_min_dist Q dp.1 with
      | none => simp only; exact h
      | some cur =>
        simp only
        exact ih _ _ (relax_preserves leftN hsinkL cur _ dp (hg cur) h)

/-- The deep copy keeps the left nodeset on the nose. -/
theorem deepcopyG_left (G : BGraph) : (deepcopyG G).left = G.left := by
  show G.left.map produce_duplicate_disconnected_node = G.left
  rw [show produce_duplicate_disconnected_node = id from funext fun _ => rfl,
    List.map_id]

/-- The deep copy keeps the right nodeset on the nose. -/
theorem deepcopyG_right (G : BGraph) : (deepcopyG G).right = G.right := by
  show G.right.map produce_duplicate_disconnected_node = G.right
  rw [show produce_duplicate_disconnected_node = id from funext fun _ => rfl,
    List.map_id]

/-- An edgeless graph has no outgoing edges at any node. -/
theorem outgoingOf_nil (G : BGraph) (h : G.edges = []) (n : String) :
    outgoingOf G n = [] := by
  unfold outgoingOf
  rw [h]
  rfl

/-- An edgeless graph has no incoming edges at any node. -/
theorem incomingOf_nil (G : BGraph) (h : G.edges = []) (n : String) :
    incomingOf G n = [] := by
  unfold incomingOf
  rw [h]
  rfl

/-- The deep copy of an edgeless graph is edgeless. -/
theorem deepcopyG_edges_nil (G : BGraph) (h : G.edges = []) :
    (deepcopyG G).edges = [] := by
  show (G.left ++ G.right).flatMap _ = []
  rw [List.flatMap_eq_nil_iff]
  intro nd _
  rw [outgoingOf_nil G h]
  rfl

/-- Attribute updates do not change node names. -/
theorem namesOf_map_setAttr (l : List PNode) (k : String) (v : AVal) :
    namesOf (l.map (fun n => setAttr n k v)) = namesOf l := by
  show (l.map _).map PNode.name = l.map PNode.name
  rw [List.map_map]
  rfl

/-- The structure needed of the source/sink dictionary of an edgeless
graph: every node that ever relaxes a neighbor relaxes into a left node
(the source's neighbors are left nodes, left nodes have no neighbors), and
every other node is never at finite distance. -/
theorem add_source_sink_empty_cases (Gr : BGraph) (hE : Gr.edges = [])
    (hdisj : ∀ n, n ∈ namesOf Gr.left → n ∈ namesOf Gr.right → False)
    (hsrcL : SOURCE_NODE ∉ namesOf Gr.left)
    (hsrcR : SOURCE_NODE ∉ namesOf Gr.right) :
    ∀ c, (∀ p ∈ lookupD (add_source_sink_nodes Gr []) c [],
          p.1 ∈ namesOf Gr.left) ∨
      (c ≠ SOURCE_NODE ∧ c ∉ namesOf Gr.left) := by
  intro c
  by_cases hcs : c = SOURCE_NODE
  · subst hcs
    left
    have hskip : lookupD (add_source_sink_nodes Gr []) SOURCE_NODE [] =
        lookupD [(SOURCE_NODE,
          (Gr.left.filter (fun nd =>
            !((([] : List (String × String)).map Prod.fst).contains
              nd.name))).map (fun nd => (nd.name, (0 : Int)))),
          (SINK_NODE, [])] SOURCE_NODE [] := by
      apply lookupD_append_skip
      intro p hp
      obtain ⟨nd, hnd, rfl⟩ := List.mem_map.mp hp
      intro hx
      rcases List.mem_append.mp hnd with h1 | h1
      · exact hsrcL (hx ▸ List.mem_map.mpr ⟨nd, h1, rfl⟩)
      · exact hsrcR (hx ▸ List.mem_map.mpr ⟨nd, h1, rfl⟩)
    rw [hskip]
    have hlp : lookupD [(SOURCE_NODE,
        (Gr.left.filter (fun nd =>
          !((([] : List (String × String)).map Prod.fst).contains
            nd.name))).map (fun nd => (nd.name, (0 : Int)))),
        (SINK_NODE, [])] SOURCE_NODE [] =
        (Gr.left.filter (fun nd =>
          !((([] : List (String × String)).map Prod.fst).contains
            nd.name))).map (fun nd => (nd.name, (0 : Int))) := by
      show (if SOURCE_NODE = SOURCE_NODE then _ else _) = _
      rw [if_pos rfl]
    rw [hlp]
    intro p hp
    obtain ⟨nd, hnd, rfl⟩ := List.mem_map.mp hp
    exact List.mem_map.mpr ⟨nd, List.mem_of_mem_filter hnd, rfl⟩
  · by_cases hcl : c ∈ namesOf Gr.left
    · left
      have hval : lookupD (add_source_sink_nodes Gr []) c [] = [] := by
        apply lookupD_const
        intro p hp hpc
        rcases List.mem_append.mp hp with h1 | h1
        · obtain ⟨nd, hnd, rfl⟩ := List.mem_map.mp h1
          have hname : nd.name = c := hpc
          show (outgoingOf Gr nd.name).map _ ++ _ = []
          rw [outgoingOf_nil Gr hE]
          have hnot : c ∉ namesOf Gr.right := fun hx => hdisj c hcl hx
          have hmem : memName nd.name Gr.right = false := by
            unfold memName
            rw [hname]
            simpa using hnot
          rw [hmem]
          rfl
        · simp only [List.mem_cons, List.not_mem_nil, or_false] at h1
          rcases h1 with h2 | h2
          · subst h2
            exact absurd hpc.symm hcs
          · subst h2
            rfl
      rw [hval]
      intro p hp
      exact absurd hp (by simp)
    · right
      exact ⟨hcs, hcl⟩

/-- Running Dijkstra from the source on a dictionary of the edgeless form
establishes the invariant, so the sink never acquires a predecessor. -/
theorem one_to_many_dinv (g : WGraph) (leftN : List String)
    (hsinkL : SINK_NODE ∉ leftN)
    (hg : ∀ c, (∀ p ∈ lookupD g c [], p.1 ∈ leftN) ∨
      (c ≠ SOURCE_NODE ∧ c ∉ leftN)) :
    dinv leftN (one_to_many g SOURCE_NODE) := by
  show dinv leftN (dijkstra_loop g (g.map Prod.fst).length (g.map Prod.fst)
    (assocSet ((g.map Prod.fst).map (fun n => (n, (none : Option Int))))
      SOURCE_NODE (some 0),
      (g.map Prod.fst).map (fun n => (n, (none : Option String)))))
  apply dijkstra_loop_preserves g leftN hsinkL hg
  constructor
  · intro n hns _
    rw [lookupD_assocSet, if_neg (fun hx => hns hx.symm)]
    apply lookupD_const
    intro p hp _
    obtain ⟨m, _, rfl⟩ := List.mem_map.mp hp
    rfl
  · intro s hx
    obtain ⟨p, hp, _, hv⟩ := lookupOpt_mem hx
    obtain ⟨m, _, rfl⟩ := List.mem_map.mp hp
    exact absurd hv (by simp)

/-- With no recorded predecessor at the sink, the traceback clears. -/
theorem traceback_sink_empty (prev : PrevMap) (n : Nat)
    (hp : ∀ s, lookupOpt prev SINK_NODE ≠ some (some s)) :
    traceback prev SOURCE_NODE (n + 1) SINK_NODE [] = [] := by
  unfold traceback
  rw [if_neg (by decide)]
  cases hl : lookupOpt prev SINK_NODE with
  | none => simp [hl]
  | some o => cases o with
    | none => simp [hl]
    | some p => exact absurd hl (hp p)

/-- On an edgeless graph with fresh source and sink names, the augmenting
path computation of MaximumCardinalityMatching returns the empty path. -/
theorem compute_augmenting_path_empty (G : BGraph) (hE : G.edges = [])
    (hdisj : ∀ n, n ∈ namesOf G.left → n ∈ namesOf G.right → False)
    (hsrcL : SOURCE_NODE ∉ namesOf G.left)
    (hsrcR : SOURCE_NODE ∉ namesOf G.right)
    (hsinkL : SINK_NODE ∉ namesOf G.left) :
    compute_augmenting_path G [] = [] := by
  have hGrL : (set_weights_zero (modify_graph_reverse G [])).left = G.left :=
    deepcopyG_left G
  have hGrR : (set_weights_zero (modify_graph_reverse G [])).right =
      G.right := deepcopyG_right G
  have hGrE : (set_weights_zero (modify_graph_reverse G [])).edges = [] := by
    show ((deepcopyG G).edges.map _) = []
    rw [deepcopyG_edges_nil G hE]
    rfl
  have hg := add_source_sink_empty_cases
    (set_weights_zero (modify_graph_reverse G [])) hGrE
    (by rw [hGrL, hGrR]; exact hdisj)
    (by rw [hGrL]; exact hsrcL)
    (by rw [hGrR]; exact hsrcR)
  have hinv := one_to_many_dinv
    (add_source_sink_nodes (set_weights_zero (modify_graph_reverse G [])) [])
    (namesOf (set_weights_zero (modify_graph_reverse G [])).left)
    (by rw [hGrL]; exact hsinkL) hg
  have htb := traceback_sink_empty
    (one_to_many
      (add_source_sink_nodes (set_weights_zero (modify_graph_reverse G []))
        []) SOURCE_NODE).2
    (add_source_sink_nodes (set_weights_zero (modify_graph_reverse G []))
      []).length hinv.2
  show (((traceback
    (one_to_many
      (add_source_sink_nodes (set_weights_zero (modify_graph_reverse G []))
        []) SOURCE_NODE).2 SOURCE_NODE
    ((add_source_sink_nodes (set_weights_zero (modify_graph_reverse G []))
      []).length + 1) SINK_NODE []).drop 1).dropLast).reverse = []
  rw [htb]
  rfl

/-- On an edgeless graph the maximum cardinality matching loop terminates
immediately with the initial empty matching. -/
theorem MCM_empty_graph (G : BGraph) (hG : validG G) (hE : G.edges = [])
    (hsrc : SOURCE_NODE ∉ namesOf (G.left ++ G.right))
    (hsink : SINK_NODE ∉ namesOf (G.left ++ G.right)) (f : Nat) :
    MaximumCardinalityMatching_apply G [] (f + 1) = some [] := by
  have hsrc' := hsrc
  have hsink' := hsink
  rw [namesOf_append] at hsrc' hsink'
  have hsrcL : SOURCE_NODE ∉ namesOf G.left :=
    fun hx => hsrc' (List.mem_append.mpr (Or.inl hx))
  have hsrcR : SOURCE_NODE ∉ namesOf G.right :=
    fun hx => hsrc' (List.mem_append.mpr (Or.inr hx))
  have hsinkL : SINK_NODE ∉ namesOf G.left :=
    fun hx => hsink' (List.mem_append.mpr (Or.inl hx))
  have hdisj := valid_sides_disjoint G hG
  have hGpL : namesOf (add_edge_attributes (add_node_attributes G "Matched"
      (.bb false)) "Matched" (.bb false)).left = namesOf G.left := by
    show namesOf ((deepcopyG (add_node_attributes G "Matched"
      (.bb false))).left) = _
    rw [deepcopyG_left]
    show namesOf ((deepcopyG G).left.map (fun n =>
      setAttr n "Matched" (.bb false))) = _
    rw [namesOf_map_setAttr, deepcopyG_left]
  have hGpR : namesOf (add_edge_attributes (add_node_attributes G "Matched"
      (.bb false)) "Matched" (.bb false)).right = namesOf G.right := by
    show namesOf ((deepcopyG (add_node_attributes G "Matched"
      (.bb false))).right) = _
    rw [deepcopyG_right]
    show namesOf ((deepcopyG G).right.map (fun n =>
      setAttr n "Matched" (.bb false))) = _
    rw [namesOf_map_setAttr, deepcopyG_right]
  have hGpE : (add_edge_attributes (add_node_attributes G "Matched"
      (.bb false)) "Matched" (.bb false)).edges = [] := by
    show ((deepcopyG (add_node_attributes G "Matched" (.bb false))).edges.map
      _) = []
    rw [deepcopyG_edges_nil]
    · rfl
    · show (deepcopyG G).edges = []
      exact deepcopyG_edges_nil G hE
  have hcap := compute_augmenting_path_empty
    (add_edge_attributes (add_node_attributes G "Matched" (.bb false))
      "Matched" (.bb false)) hGpE
    (by rw [hGpL, hGpR]; exact hdisj)
    (by rw [hGpL]; exact hsrcL)
    (by rw [hGpR]; exact hsrcR)
    (by rw [hGpL]; exact hsinkL)
  show MCM_loop (f + 1)
    (add_edge_attributes (add_node_attributes G "Matched" (.bb false))
      "Matched" (.bb false)) [] = some []
  conv_lhs => unfold MCM_loop
  simp only [hcap]
  rfl

/-- Pruning the disconnected nodes of an edgeless graph leaves the empty
graph. -/
theorem remove_disconnected_empty (G : BGraph) (hE : G.edges = []) :
    remove_disconnected_nodes G = ⟨[], [], []⟩ := by
  have hic : ∀ n, incidentCount G n = 0 := by
    intro n
    unfold incidentCount
    rw [outgoingOf_nil G hE, incomingOf_nil G hE]
    rfl
  show (⟨G.left.filter _, G.right.filter _, G.edges⟩ : BGraph) = _
  have h1 : G.left.filter (fun nd => incidentCount G nd.name != 0) = [] :=
    List.filter_eq_nil_iff.mpr (fun nd _ => by simp [hic])
  have h2 : G.right.filter (fun nd => incidentCount G nd.name != 0) = [] :=
    List.filter_eq_nil_iff.mpr (fun nd _ => by simp [hic])
  rw [h1, h2, hE]

/-- Balancing the empty graph returns it unchanged, for any dummy-name
supply and any fuel. -/
theorem empty_graph_balanced (names : List String) (bf : Nat) :
    construct_balanced_equivalent ⟨[], [], []⟩ names bf =
      some (Except.ok ⟨[], [], []⟩) :=
  balance_loop_done [] true bf names ⟨[], [], []⟩ rfl

/-- On an edgeless graph the Kuhn-Munkres pipeline collapses: every node is
pruned, the empty graph balances to itself, and the first zero-subgraph
matching is the empty matching, which is perfect. -/
theorem KM_empty_graph (G : BGraph) (hE : G.edges = [])
    (names : List String) (bf kf mf : Nat) :
    KuhnMunkres_apply G names bf (kf + 1) (mf + 1) = some [] := by
  conv_lhs => unfold KuhnMunkres_apply
  rw [remove_disconnected_empty G hE, empty_graph_balanced names bf]
  rfl

/-- On an edgeless graph the Edmonds-Karp pipeline collapses in the same
way: the empty matching on the pruned empty graph is perfect at once. -/
theorem EK_empty_graph (G : BGraph) (hE : G.edges = [])
    (names : List String) (bf innf : Nat) (outf : Nat) :
    EdmondsKarp_apply G names bf (outf + 1) innf = some [] := by
  conv_lhs => unfold EdmondsKarp_apply
  rw [remove_disconnected_empty G hE, empty_graph_balanced names bf]
  rfl

/-- C10: For every valid bipartite graph with no edges (whatever its
nodesets, as long as they avoid the reserved "Source Node"/"Sink Node"
names), MaximumCardinalityMatching.apply with the empty initial matching,
KuhnMunkres.apply and EdmondsKarp.apply all terminate normally and return
the empty matching, at every sufficient fuel and any dummy-name supply. -/
theorem empty_edge_graphs_empty_matching (G : BGraph) (hG : validG G)
    (hE : G.edges = [])
    (hsrc : SOURCE_NODE ∉ namesOf (G.left ++ G.right))
    (hsink : SINK_NODE ∉ namesOf (G.left ++ G.right))
    (names : List String) (bf mf kf outf innf : Nat) :
    MaximumCardinalityMatching_apply G [] (mf + 1) = some [] ∧
    KuhnMunkres_apply G names bf (kf + 1) (mf + 1) = some [] ∧
    EdmondsKarp_apply G names bf (outf + 1) innf = some [] :=
  ⟨MCM_empty_graph G hG hE hsrc hsink mf,
    KM_empty_graph G hE names bf kf mf,
    EK_empty_graph G hE names bf innf outf⟩

theorem empty_edge_graphs_empty_matching_witness :
    validG (⟨[⟨"A", []⟩], [⟨"X", []⟩], []⟩ : BGraph) ∧
    MaximumCardinalityMatching_apply ⟨[⟨"A", []⟩], [⟨"X", []⟩], []⟩ [] 1 =
      some [] ∧
    KuhnMunkres_apply ⟨[⟨"A", []⟩], [⟨"X", []⟩], []⟩ [] 0 1 1 = some [] ∧
    EdmondsKarp_apply ⟨[⟨"A", []⟩], [⟨"X", []⟩], []⟩ [] 0 1 0 = some [] :=
  ⟨by decide,
    empty_edge_graphs_empty_matching ⟨[⟨"A", []⟩], [⟨"X", []⟩], []⟩
      (by decide) rfl (by decide) (by decide) [] 0 0 0 0 0⟩

/-! ### Object-heap model

The value-level embedding above identifies a graph with its observable
state; to reason about object references — in particular about the
reference cycles that Node.__str__ and Edge.__str__ traverse when a set
insertion computes hash(str(...)) — the definitions below model the
Python object graph explicitly: Node and Edge objects live in a heap
addressed by allocation order, a BipartiteGraph holds the node ids of its
two nodesets, and the relevant library operations are re-expressed as
state functions on the heap, stopping at the program point whose hash
computation is under scrutiny. -/

/-- A Python Node object: name, attribute dict and the two edge sets,
holding references (ids) to Edge objects. -/
structure NodeObj where
  name : String
  attrs : Attrs
  outgoing : List Nat
  incoming : List Nat
deriving DecidableEq, Repr

/-- A Python Edge object: weight, attribute dict and references to the two
endpoint Node objects. -/
structure EdgeObj where
  weight : Int
  attrs : Attrs
  src : Nat
  dst : Nat
deriving DecidableEq, Repr

/-- The object heap: allocation-ordered stores of Node and Edge objects and
the next free address. -/
structure Heap where
  nodes : List (Nat × NodeObj)
  edges : List (Nat × EdgeObj)
  nextId : Nat
deriving DecidableEq, Repr

/-- A BipartiteGraph object: the node ids of its left and right nodesets in
insertion order. -/
structure HGraph where
  left : List Nat
  right : List Nat
deriving DecidableEq, Repr

/-- In-place overwrite of an existing object in a Nat-keyed store (object
mutation never creates a binding: the object being mutated exists). -/
def updNat {β : Type} (l : List (Nat × β)) (k : Nat) (v : β) :
    List (Nat × β) :=
  l.map (fun p => if p.1 = k then (k, v) else p)

/-- Lookup in a Nat-keyed store. -/
def lookupNat {β : Type} (l : List (Nat × β)) (k : Nat) : Option β :=
  (l.find? (fun p => p.1 == k)).map Prod.snd

def lookupN (h : Heap) (i : Nat) : Option NodeObj := lookupNat h.nodes i

def lookupE (h : Heap) (i : Nat) : Option EdgeObj := lookupNat h.edges i

/-- Dereference of a node id (the default is never reached in the verified
runs: the Python would raise instead). -/
def hNodeD (h : Heap) (i : Nat) : NodeObj := (lookupN h i).getD ⟨"", [], [], []⟩

def hEdgeD (h : Heap) (i : Nat) : EdgeObj := (lookupE h i).getD ⟨0, [], 0, 0⟩

/-- node.get_name() through a reference. -/
def hname (h : Heap) (i : Nat) : String := (hNodeD h i).name

def setN (h : Heap) (i : Nat) (o : NodeObj) : Heap :=
  ⟨updNat h.nodes i o, h.edges, h.nextId⟩

def setE (h : Heap) (i : Nat) (o : EdgeObj) : Heap :=
  ⟨h.nodes, updNat h.edges i o, h.nextId⟩

/-- Object allocation: the new object receives the next address. -/
def allocN (h : Heap) (o : NodeObj) : Heap × Nat :=
  (⟨h.nodes ++ [(h.nextId, o)], h.edges, h.nextId + 1⟩, h.nextId)

def allocE (h : Heap) (o : EdgeObj) : Heap × Nat :=
  (⟨h.nodes, h.edges ++ [(h.nextId, o)], h.nextId + 1⟩, h.nextId)

/-- Edge.__eq__ through the heap: structural equality with name-based
endpoint comparison. -/
def hEdgeEqB (h : Heap) (e f : EdgeObj) : Bool :=
  e.weight == f.weight && attrsEqB e.attrs f.attrs &&
    hname h e.src == hname h f.src && hname h e.dst == hname h f.dst

/-- Python set insertion of an edge reference into an edge set. -/
def hInsertEdgeId (h : Heap) (l : List Nat) (eid : Nat) : List Nat :=
  if l.any (fun f => hEdgeEqB h (hEdgeD h f) (hEdgeD h eid)) then l
  else l ++ [eid]

/-- Node.add_attribute / set_attribute_value. -/
def hSetNodeAttr (h : Heap) (i : Nat) (k : String) (v : AVal) : Heap :=
  let o := hNodeD h i
  setN h i ⟨o.name, assocSet o.attrs k v, o.outgoing, o.incoming⟩

/-- Edge.add_attribute / set_attribute_value. -/
def hSetEdgeAttr (h : Heap) (i : Nat) (k : String) (v : AVal) : Heap :=
  let o := hEdgeD h i
  setE h i ⟨o.weight, assocSet o.attrs k v, o.src, o.dst⟩

/-- Node.add_outgoing_edge. -/
def hAddOutgoing (h : Heap) (i eid : Nat) : Heap :=
  let o := hNodeD h i
  setN h i ⟨o.name, o.attrs, hInsertEdgeId h o.outgoing eid, o.incoming⟩

/-- Node.add_incoming_edge. -/
def hAddIncoming (h : Heap) (i eid : Nat) : Heap :=
  let o := hNodeD h i
  setN h i ⟨o.name, o.attrs, o.outgoing, hInsertEdgeId h o.incoming eid⟩

/-- Node.remove_outgoing_edge: drop the outgoing edges leading to the named
terminal. -/
def hRemoveOutgoing (h : Heap) (i : Nat) (tname : String) : Heap :=
  let o := hNodeD h i
  setN h i ⟨o.name, o.attrs,
    o.outgoing.filter (fun e => !(hname h (hEdgeD h e).dst == tname)),
    o.incoming⟩

/-- Node.remove_incoming_edge: drop the incoming edges originating at the
named source. -/
def hRemoveIncoming (h : Heap) (i : Nat) (sname : String) : Heap :=
  let o := hNodeD h i
  setN h i ⟨o.name, o.attrs, o.outgoing,
    o.incoming.filter (fun e => !(hname h (hEdgeD h e).src == sname))⟩

/-- GraphProcessing.search_node_names(...).pop(): the first id among the
given ids whose node bears the name. -/
def searchIds (h : Heap) (ids : List Nat) (nm : String) : Option Nat :=
  ids.find? (fun i => hname h i == nm)

/-- One step of the copy phase of extract_edge_induced_subgraph: allocate
a disconnected duplicate (produce_duplicate_disconnected_node) and record
its address. -/
def copy_node_step (acc : Heap × List Nat) (i : Nat) : Heap × List Nat :=
  let o := hNodeD acc.1 i
  let a := allocN acc.1 ⟨o.name, o.attrs, [], []⟩
  (a.1, acc.2 ++ [a.2])

/-- One step of the edge-copy phase: if the original edge passes the
predicate, allocate a copy wired (by name lookup among the copied nodes)
into the copied endpoints. -/
def copy_edge_step (pred : EdgeObj → Bool) (news : List Nat) (ci : Nat)
    (hc2 : Heap) (eid : Nat) : Heap :=
  let eo := hEdgeD hc2 eid
  if pred eo then
    match searchIds hc2 news (hname hc2 eo.dst) with
    | none => hc2
    | some ti =>
      let a := allocE hc2 ⟨eo.weight, eo.attrs, ci, ti⟩
      hAddIncoming (hAddOutgoing a.1 ci a.2) ti a.2
  else hc2

/-- The per-original-node edge-copy loop of
extract_edge_induced_subgraph. -/
def copy_node_edges (pred : EdgeObj → Bool) (news : List Nat) (hc : Heap)
    (i : Nat) : Heap :=
  match searchIds hc news (hname hc i) with
  | none => hc
  | some ci => (hNodeD hc i).outgoing.foldl (copy_edge_step pred news ci) hc

/-- BipartiteGraph.extract_edge_induced_subgraph on the heap: allocate a
disconnected copy of every node of both sides, then for every original
node in left-then-right order copy its outgoing edges that satisfy the
predicate, allocating a fresh Edge object wired (name-based lookup) into
the copied endpoints. -/
def extract_heap (h : Heap) (G : HGraph) (pred : EdgeObj → Bool) :
    Heap × HGraph :=
  let s1 := G.left.foldl copy_node_step (h, [])
  let s2 := G.right.foldl copy_node_step (s1.1, [])
  ((G.left ++ G.right).foldl (copy_node_edges pred (s1.2 ++ s2.2)) s2.1,
    ⟨s1.2, s2.2⟩)

/-- BipartiteGraph.add_node_attributes on the heap: deep copy, then mutate
the attribute dict of every node of the copy. -/
def add_node_attributes_heap (h : Heap) (G : HGraph) (k : String)
    (v : AVal) : Heap × HGraph :=
  let s := extract_heap h G (fun _ => true)
  ((s.2.left ++ s.2.right).foldl (fun hc i => hSetNodeAttr hc i k v) s.1,
    s.2)

/-- BipartiteGraph.get_edges on the heap. -/
def hGetEdges (h : Heap) (G : HGraph) : List Nat :=
  G.left.flatMap (fun i => (hNodeD h i).outgoing) ++
    G.left.flatMap (fun i => (hNodeD h i).incoming)

/-- BipartiteGraph.add_edge_attributes on the heap: deep copy, then mutate
the attribute dict of every edge of the copy. -/
def add_edge_attributes_heap (h : Heap) (G : HGraph) (k : String)
    (v : AVal) : Heap × HGraph :=
  let s := extract_heap h G (fun _ => true)
  ((hGetEdges s.1 s.2).foldl (fun hc e => hSetEdgeAttr hc e k v) s.1, s.2)

/-- Preprocessing.modify_graph on the heap: deep copy, then for every
matched pair look up the endpoints by name in the copy and invoke the
update function on every edge joining them. -/
def modify_pair_step (upd : Heap → Nat → Nat → Nat → Heap) (G' : HGraph)
    (hc : Heap) (p : String × String) : Heap :=
  match searchIds hc G'.left p.1, searchIds hc G'.right p.2 with
  | some si, some ti =>
    ((hNodeD hc si).outgoing).foldl (fun hc2 eid =>
      if hname hc2 (hEdgeD hc2 eid).dst == p.2 then upd hc2 si ti eid
      else hc2) hc
  | _, _ => hc

def modify_graph_heap (upd : Heap → Nat → Nat → Nat → Heap) (h : Heap)
    (G : HGraph) (matching : List (String × String)) : Heap × HGraph :=
  let s := extract_heap h G (fun _ => true)
  (matching.foldl (modify_pair_step upd s.2) s.1, s.2)

/-- Preprocessing.reverse_matched_directed_edge on the heap. -/
def reverse_matched_directed_edge_heap (h : Heap) (si ti eid : Nat) :
    Heap :=
  let h1 := hRemoveOutgoing h si (hname h ti)
  let h2 := hAddIncoming h1 si eid
  let h3 := hRemoveIncoming h2 ti (hname h2 si)
  let h4 := hAddOutgoing h3 ti eid
  let eo := hEdgeD h4 eid
  setE h4 eid ⟨eo.weight, eo.attrs, ti, si⟩

/-- MaximumCardinalityMatching.__update_matched_attributes on the heap. -/
def update_matched_attributes_heap (h : Heap) (si ti eid : Nat) : Heap :=
  hSetEdgeAttr (hSetNodeAttr (hSetNodeAttr h si "Matched" (.bb true)) ti
    "Matched" (.bb true)) eid "Matched" (.bb true)

/-- BipartiteGraph.add_edge on the heap (the post-mutation validity
re-check is read-only and omitted). -/
def add_edge_heap (h : Heap) (G : HGraph) (w : Int) (ats : Attrs)
    (si ti : Nat) : Heap × HGraph :=
  let G1 := if (G.left.map (hname h)).contains (hname h si) then G
    else ⟨G.left ++ [si], G.right⟩
  let G2 := if (G1.right.map (hname h)).contains (hname h ti) then G1
    else ⟨G1.left, G1.right ++ [ti]⟩
  let a := allocE h ⟨w, ats, si, ti⟩
  (hAddIncoming (hAddOutgoing a.1 si a.2) ti a.2, G2)

/-- One dummy-edge insertion of the balancing loop: the dummy is the
source under left deficiency and the terminal otherwise. -/
def balance_edge_step (ld : Bool) (di : Nat) (acc : Heap × HGraph)
    (ci : Nat) : Heap × HGraph :=
  if ld then add_edge_heap acc.1 acc.2 0 [] di ci
  else add_edge_heap acc.1 acc.2 0 [] ci di

/-- The while loop of Preprocessing.construct_balanced_equivalent on the
heap, with explicit fuel and dummy-name supply. -/
def balance_heap_loop (complete : List Nat) (ld : Bool) :
    Nat → List String → Heap → HGraph → Heap × HGraph
  | 0, _, h, G => (h, G)
  | fuel + 1, names, h, G =>
    if G.left.length == G.right.length then (h, G)
    else match names with
      | [] => (h, G)
      | nm :: rest =>
        let a := allocN h ⟨nm, [], [], []⟩
        let s := complete.foldl (balance_edge_step ld a.2) (a.1, G)
        balance_heap_loop complete ld fuel rest s.1 s.2

/-- Preprocessing.construct_balanced_equivalent on the heap. -/
def construct_balanced_equivalent_heap (h : Heap) (G : HGraph)
    (names : List String) (fuel : Nat) : Heap × HGraph :=
  let s := extract_heap h G (fun _ => true)
  let complete := if s.2.left.length > s.2.right.length then s.2.left
    else s.2.right
  let deficient := if s.2.left.length > s.2.right.length then s.2.right
    else s.2.left
  balance_heap_loop complete (deficient.length == s.2.left.length) fuel
    names s.1 s.2


/-! ### The hash of a connected object (Node.__hash__ / Edge.__hash__)

CPython set insertion always computes hash(x) for the inserted object;
Node.__hash__ and Edge.__hash__ both return hash(str(self)), Node.__str__
joins the __str__ of every incident edge, and Edge.__str__ embeds the
__str__ of both endpoint nodes.  strObjF computes str of a node (flag
true) or an edge (flag false) reference at a bounded recursion depth of
nested __str__ calls; none means the depth was exhausted.  A Python str
call that terminates yields some s at every sufficient depth; an object
on a node-edge reference cycle yields none at every depth — in CPython
the call exceeds the recursion limit and raises RecursionError, so the
hash (and with it the enclosing set insertion) never completes. -/

/-- Option-valued map over a list: none as soon as one element maps to
none (a Python exception aborts the whole join). -/
def mapO {α β : Type} (g : α → Option β) : List α → Option (List β)
  | [] => some []
  | a :: l =>
    match g a, mapO g l with
    | some b, some bs => some (b :: bs)
    | _, _ => none

/-- Python "\n".join. -/
def joinNL (l : List String) : String := String.intercalate "\n" l

/-- Node.__str__ (flag true) and Edge.__str__ (flag false) through the
heap, at recursion depth f: the format strings of Node.py lines 22-26 and
Edge.py lines 19-23, with each nested __str__ call one depth lower. -/
def strObjF : Nat → Heap → Bool → Nat → Option String
  | 0, _, _, _ => none
  | f + 1, h, true, i =>
    match mapO (fun e => strObjF f h false e) (hNodeD h i).outgoing,
        mapO (fun e => strObjF f h false e) (hNodeD h i).incoming with
    | some outs, some ins =>
      some ("Node Name: " ++ (hNodeD h i).name ++ "\n" ++
        "Node Attributes: " ++ attrsPy (hNodeD h i).attrs ++ "\n" ++
        "Outgoing Edges: " ++ joinNL outs ++ "\n" ++
        "Incoming Edges: " ++ joinNL ins ++ "\n")
    | _, _ => none
  | f + 1, h, false, e =>
    match strObjF f h true (hEdgeD h e).src,
        strObjF f h true (hEdgeD h e).dst with
    | some s, some t =>
      some ("Edge Weight: " ++ toString (hEdgeD h e).weight ++ "\n" ++
        "Edge Attributes: " ++ attrsPy (hEdgeD h e).attrs ++ "\n" ++
        "Source Node: \n" ++ s ++ "\n" ++
        "Terminal Node: \n" ++ t ++ "\n")
    | _, _ => none

/-- str of a Node object reference at depth f. -/
def strNodeF (f : Nat) (h : Heap) (i : Nat) : Option String :=
  strObjF f h true i

/-- str of an Edge object reference at depth f. -/
def strEdgeF (f : Nat) (h : Heap) (e : Nat) : Option String :=
  strObjF f h false e

/-- Edge creation and source-side wiring, shared by BipartiteGraph.add_edge
(lines 104-106) and the copy-edge wiring of extract_edge_induced_subgraph
(lines 194-204): allocate the Edge object, then insert it into the source
node's outgoing set.  First component: the heap at which the first set.add
(line 105 / 203) computes hash(edge); second component: the heap at which
the second set.add (line 106 / 204) computes hash(edge), the edge by then
being a member of its own source's outgoing set; third component: the
address of the new edge. -/
def wire_states (h : Heap) (w : Int) (ats : Attrs) (si ti : Nat) :
    Heap × Heap × Nat :=
  let a := allocE h ⟨w, ats, si, ti⟩
  (a.1, hAddOutgoing a.1 si a.2, a.2)

/-- BipartiteGraph.add_edge executed up to the hash computed by line 106:
lines 97-102 auto-insert a missing endpoint into the nodesets by name
(the re-validation those insertions trigger is read-only and, on an
edge-free graph, passes), line 104 allocates the Edge object and line 105
wires it into the source's outgoing set.  Returns the updated nodesets
together with the wire_states of the new edge. -/
def add_edge_upto_wire (h : Heap) (G : HGraph) (w : Int) (ats : Attrs)
    (si ti : Nat) : HGraph × Heap × Heap × Nat :=
  let G1 := if (G.left.map (hname h)).contains (hname h si) then G
    else ⟨G.left ++ [si], G.right⟩
  let G2 := if (G1.right.map (hname h)).contains (hname h ti) then G1
    else ⟨G1.left, G1.right ++ [ti]⟩
  (G2, wire_states h w ats si ti)

/-- One side of AssignmentProblem.remove_disconnected_nodes (identical in
Preprocessing.py): the set comprehension retains the nodes with at least
one incident edge; building the new set computes hash(node) for each
retained node in iteration order. -/
def remove_disconnected_retained (h : Heap) (ids : List Nat) : List Nat :=
  ids.filter (fun i =>
    !((hNodeD h i).outgoing ++ (hNodeD h i).incoming).isEmpty)

/-- BipartiteGraph.extract_edge_induced_subgraph executed up to the hash
computed by line 204 for the first predicate-passing edge: the copy phase
of lines 170-172, then the scan of lines 175-191 over the original nodes
(left-then-right order) and their outgoing edges; the first passing edge
is copied (line 194) and wired into the copy source's outgoing set
(line 203).  Returns none when no edge passes the predicate — the call
then completes without ever hashing a connected object.  The predicate
reads the original edge through the heap, as the source's lambdas do. -/
def extract_first_wire (h : Heap) (G : HGraph)
    (pred : Heap → EdgeObj → Bool) : Option (Heap × Heap × Nat) :=
  let s1 := G.left.foldl copy_node_step (h, [])
  let s2 := G.right.foldl copy_node_step (s1.1, [])
  let hc := s2.1
  let news := s1.2 ++ s2.2
  match ((G.left ++ G.right).flatMap (fun i => (hNodeD hc i).outgoing)).filter
      (fun e => pred hc (hEdgeD hc e)) with
  | [] => none
  | e :: _ =>
    let eo := hEdgeD hc e
    match searchIds hc news (hname hc eo.src),
        searchIds hc news (hname hc eo.dst) with
    | some cs, some ct => some (wire_states hc eo.weight eo.attrs cs ct)
    | _, _ => none

/-- BipartiteGraph.__deepcopy__ = extract_edge_induced_subgraph(self,
lambda edge: True), executed up to the hash of line 204 for the first
copied edge.  This deep copy is the first step of add_node_attributes,
add_edge_attributes, modify_graph, construct_balanced_equivalent and
__adjust_weights. -/
def deepcopy_first_wire (h : Heap) (G : HGraph) :
    Option (Heap × Heap × Nat) :=
  extract_first_wire h G (fun _ _ => true)

/-- AssignmentProblem.is_perfect executed up to the hash of line 204 of
the matched-edge subgraph extraction, with the membership predicate of
AssignmentProblem.py lines 27-28. -/
def is_perfect_first_wire (h : Heap) (G : HGraph)
    (matching : List (String × String)) : Option (Heap × Heap × Nat) :=
  extract_first_wire h G (fun hh eo =>
    matching.contains (hname hh eo.src, hname hh eo.dst))

/-- Preprocessing.construct_balanced_equivalent executed up to the hash of
line 106 of the first dummy edge's add_edge: the deep copy of line 21
(whose edge-wiring loop is vacuous on an edge-free input), the
complete/deficient split of lines 24-29, the dummy-node creation of lines
32-38 (name supplied in place of the random draw) and the first add_edge
of the loop of lines 40-44.  Returns none when the input is already
balanced, in which case no dummy edge is ever created.  (add_edge's
auto-insertion of the dummy into a nodeset only touches nodeset
membership, not the node and edge objects the hash traverses.) -/
def cbe_first_wire (h : Heap) (G : HGraph) (dummyName : String) :
    Option (Heap × Heap × Nat) :=
  let s1 := G.left.foldl copy_node_step (h, [])
  let s2 := G.right.foldl copy_node_step (s1.1, [])
  if s1.2.length == s2.2.length then none
  else
    let complete := if s1.2.length > s2.2.length then s1.2 else s2.2
    let ld := s1.2.length < s2.2.length
    let a := allocN s2.1 ⟨dummyName, [], [], []⟩
    match complete with
    | [] => none
    | c :: _ =>
      if ld then some (wire_states a.1 0 [] a.2 c)
      else some (wire_states a.1 0 [] c a.2)

/-- The two disconnected nodes A (left) and X (right). -/
def twoNodeHeap : Heap :=
  ⟨[(0, ⟨"A", [], [], []⟩), (1, ⟨"X", [], [], []⟩)], [], 2⟩

def twoNodeG : HGraph := ⟨[0], [1]⟩

/-- One left node A wired to one right node X by the weight-1 edge at
address 2. -/
def oneEdgeHeap : Heap :=
  ⟨[(0, ⟨"A", [], [2], []⟩), (1, ⟨"X", [], [], [2]⟩)],
    [(2, ⟨1, [], 0, 1⟩)], 3⟩

def oneEdgeG : HGraph := ⟨[0], [1]⟩

/-- A single left node A and an empty right nodeset: the smallest
unbalanced graph. -/
def unbalancedHeap : Heap := ⟨[(0, ⟨"A", [], [], []⟩)], [], 1⟩

def unbalancedG : HGraph := ⟨[0], []⟩

/-- The C2 scenario graph as an object heap: nodes A, B, X, Y at
addresses 0-3 and the edges A→X(1), A→Y(2), B→X(3), B→Y(4) at
addresses 4-7. -/
def scenarioHeap : Heap :=
  ⟨[(0, ⟨"A", [], [4, 5], []⟩), (1, ⟨"B", [], [6, 7], []⟩),
    (2, ⟨"X", [], [], [4, 6]⟩), (3, ⟨"Y", [], [], [5, 7]⟩)],
   [(4, ⟨1, [], 0, 2⟩), (5, ⟨2, [], 0, 3⟩),
    (6, ⟨3, [], 1, 2⟩), (7, ⟨4, [], 1, 3⟩)], 8⟩

def scenarioG : HGraph := ⟨[0, 1], [2, 3]⟩

theorem mapO_none {α β : Type} (g : α → Option β) (l : List α) (a : α)
    (ha : a ∈ l) (hg : g a = none) : mapO g l = none := by
  induction l with
  | nil => cases ha
  | cons x t ih =>
    rcases List.mem_cons.mp ha with h1 | h1
    · subst h1
      show (match g a, mapO g t with
        | some b, some bs => some (b :: bs)
        | _, _ => none) = none
      rw [hg]
    · cases hx : g x with
      | none =>
        show (match g x, mapO g t with
          | some b, some bs => some (b :: bs)
          | _, _ => none) = none
        rw [hx]
      | some b =>
        show (match g x, mapO g t with
          | some b, some bs => some (b :: bs)
          | _, _ => none) = none
        rw [hx, ih h1]

/-- A node and an incident edge that refers back to it give each other
infinite string representations: at every recursion depth both strs are
exhausted.  Every wired edge forms exactly this cycle with its own source
node (and with its terminal node), so once line 105 / 203 has placed the
edge in the source's outgoing set, no later hash of the edge or of either
endpoint can ever complete. -/
theorem str_cycle (h : Heap) (i e : Nat)
    (hmem : e ∈ (hNodeD h i).outgoing ∨ e ∈ (hNodeD h i).incoming)
    (hend : (hEdgeD h e).src = i ∨ (hEdgeD h e).dst = i) :
    ∀ f, strObjF f h true i = none ∧ strObjF f h false e = none := by
  intro f
  induction f with
  | zero => exact ⟨rfl, rfl⟩
  | succ f ih =>
    constructor
    · show (match mapO (fun e2 => strObjF f h false e2) (hNodeD h i).outgoing,
          mapO (fun e2 => strObjF f h false e2) (hNodeD h i).incoming with
        | some outs, some ins =>
          some ("Node Name: " ++ (hNodeD h i).name ++ "\n" ++
            "Node Attributes: " ++ attrsPy (hNodeD h i).attrs ++ "\n" ++
            "Outgoing Edges: " ++ joinNL outs ++ "\n" ++
            "Incoming Edges: " ++ joinNL ins ++ "\n")
        | _, _ => none) = none
      rcases hmem with hm | hm
      · rw [mapO_none _ _ _ hm ih.2]
      · have hin := mapO_none (fun e2 => strObjF f h false e2) _ _ hm ih.2
        cases hout : mapO (fun e2 => strObjF f h false e2)
            (hNodeD h i).outgoing with
        | none => rfl
        | some outs => rw [hin]
    · show (match strObjF f h true (hEdgeD h e).src,
          strObjF f h true (hEdgeD h e).dst with
        | some s, some t =>
          some ("Edge Weight: " ++ toString (hEdgeD h e).weight ++ "\n" ++
            "Edge Attributes: " ++ attrsPy (hEdgeD h e).attrs ++ "\n" ++
            "Source Node: \n" ++ s ++ "\n" ++
            "Terminal Node: \n" ++ t ++ "\n")
        | _, _ => none) = none
      rcases hend with hs | hs
      · rw [hs, ih.1]
      · have hdst : strObjF f h true (hEdgeD h e).dst = none := by
          rw [hs]; exact ih.1
        cases hsrc : strObjF f h true (hEdgeD h e).src with
        | none => rfl
        | some s => rw [hdst]

/-- C2: the claim asserts that KuhnMunkres.apply and EdmondsKarp.apply,
run on the concrete graph A,B | X,Y with edges A→X(1), A→Y(2), B→X(3),
B→Y(4), return the matchings (A,X),(B,Y) and (A,Y),(B,X) of weight 5.
Both pipelines begin with remove_disconnected_nodes (KuhnMunkres.py line
23, EdmondsKarp.py line 24), whose set comprehensions retain every node
of this graph (first two conjuncts) and must therefore insert each of
them into a new Python set, computing hash(node) = hash(str(node)); the
remaining conjuncts show that str of every node of the scenario heap is
exhausted at every recursion depth, so the very first insertion —
whichever node iteration order serves first — raises RecursionError and
neither claimed matching is ever produced. -/
theorem concrete_scenario_first_hash_diverges :
    remove_disconnected_retained scenarioHeap scenarioG.left = [0, 1] ∧
    remove_disconnected_retained scenarioHeap scenarioG.right = [2, 3] ∧
    (∀ f, strNodeF f scenarioHeap 0 = none) ∧
    (∀ f, strNodeF f scenarioHeap 1 = none) ∧
    (∀ f, strNodeF f scenarioHeap 2 = none) ∧
    (∀ f, strNodeF f scenarioHeap 3 = none) := by
  refine ⟨by decide, by decide, ?_, ?_, ?_, ?_⟩
  · exact fun f => (str_cycle scenarioHeap 0 4 (Or.inl (by decide))
      (Or.inl (by decide)) f).1
  · exact fun f => (str_cycle scenarioHeap 1 6 (Or.inl (by decide))
      (Or.inl (by decide)) f).1
  · exact fun f => (str_cycle scenarioHeap 2 4 (Or.inr (by decide))
      (Or.inr (by decide)) f).1
  · exact fun f => (str_cycle scenarioHeap 3 5 (Or.inr (by decide))
      (Or.inr (by decide)) f).1

/-- The heap at which line 105 of add_edge(5, {}, A, X) on twoNodeHeap
computes hash(edge): the Edge object exists but is not yet wired. -/
def twoNodeWireA : Heap :=
  ⟨[(0, ⟨"A", [], [], []⟩), (1, ⟨"X", [], [], []⟩)],
    [(2, ⟨5, [], 0, 1⟩)], 3⟩

/-- The heap at which line 106 of the same call computes hash(edge): the
edge is now a member of A's outgoing set. -/
def twoNodeWireB : Heap :=
  ⟨[(0, ⟨"A", [], [2], []⟩), (1, ⟨"X", [], [], []⟩)],
    [(2, ⟨5, [], 0, 1⟩)], 3⟩

/-- The heap at which line 203 of the subgraph extraction on oneEdgeHeap
computes hash(copy_edge): copies of A and X at addresses 3 and 4, the
copied edge at address 5, not yet wired. -/
def oneEdgeWireA : Heap :=
  ⟨[(0, ⟨"A", [], [2], []⟩), (1, ⟨"X", [], [], [2]⟩),
    (3, ⟨"A", [], [], []⟩), (4, ⟨"X", [], [], []⟩)],
   [(2, ⟨1, [], 0, 1⟩), (5, ⟨1, [], 3, 4⟩)], 6⟩

/-- The heap at which line 204 of the same extraction computes
hash(copy_edge): the copy is now a member of copy-A's outgoing set. -/
def oneEdgeWireB : Heap :=
  ⟨[(0, ⟨"A", [], [2], []⟩), (1, ⟨"X", [], [], [2]⟩),
    (3, ⟨"A", [], [5], []⟩), (4, ⟨"X", [], [], []⟩)],
   [(2, ⟨1, [], 0, 1⟩), (5, ⟨1, [], 3, 4⟩)], 6⟩

/-- The heap at which line 105 of the first dummy add_edge of
construct_balanced_equivalent on unbalancedHeap computes hash(edge): the
copy of A at address 1, the dummy node at address 2, the dummy edge at
address 3, not yet wired. -/
def unbalWireA : Heap :=
  ⟨[(0, ⟨"A", [], [], []⟩), (1, ⟨"A", [], [], []⟩),
    (2, ⟨"Dummy Node 7", [], [], []⟩)],
   [(3, ⟨0, [], 1, 2⟩)], 4⟩

/-- The heap at which line 106 of the same call computes hash(edge): the
dummy edge is now a member of the A-copy's outgoing set. -/
def unbalWireB : Heap :=
  ⟨[(0, ⟨"A", [], [], []⟩), (1, ⟨"A", [], [3], []⟩),
    (2, ⟨"Dummy Node 7", [], [], []⟩)],
   [(3, ⟨0, [], 1, 2⟩)], 4⟩

/-- C6: on the valid two-node graph A | X with no edges, add_edge(5, {},
A, X) violates none of the three structural invariants (first conjunct),
so the claim requires a normal return with the edge wired in.  The trace
equation (second conjunct) exhibits the heaps at which lines 105 and 106
compute hash(edge): line 105's hash still terminates because both
endpoints are disconnected at that moment (third conjunct), but once
line 105 has inserted the edge into A's outgoing set, the string that
line 106's hash must build is exhausted at every recursion depth (fourth
conjunct) — every add_edge call that reaches the wiring raises
RecursionError instead of returning normally, and what it raises is not
one of the claimed structural-invariant exceptions. -/
theorem add_edge_wiring_hash_diverges :
    validG ⟨[⟨"A", []⟩], [⟨"X", []⟩], []⟩ ∧
    add_edge_upto_wire twoNodeHeap twoNodeG 5 [] 0 1 =
      (⟨[0], [1]⟩, twoNodeWireA, twoNodeWireB, 2) ∧
    (strEdgeF 2 twoNodeWireA 2).isSome = true ∧
    ∀ f, strEdgeF f twoNodeWireB 2 = none := by
  refine ⟨by decide, by decide, by decide, fun f => ?_⟩
  exact (str_cycle twoNodeWireB 0 2 (Or.inl (by decide))
    (Or.inl (by decide)) f).2

/-- C4: the claim requires is_perfect(G, matching) = True whenever
|matching| = |left nodeset| = |right nodeset| and every node name of G
appears in exactly one pair.  On the one-edge graph A→X with the perfect
matching ("A","X") the claimed right-hand side holds (second conjunct,
stated of the value-level graph), but the source never returns True: the
matched-edge subgraph extraction copies the edge and wires it — line
203's hash of the copied edge still terminates (fourth conjunct), and
once line 203 has placed the copy in copy-A's outgoing set, the hash
demanded by line 204 is exhausted at every recursion depth (fifth
conjunct).  is_perfect raises RecursionError on every matching containing
an actual edge of the graph instead of deciding it. -/
theorem is_perfect_matched_edge_hash_diverges :
    validG ⟨[⟨"A", []⟩], [⟨"X", []⟩], [⟨"A", "X", 1, []⟩]⟩ ∧
    claim_perfect ⟨[⟨"A", []⟩], [⟨"X", []⟩], [⟨"A", "X", 1, []⟩]⟩
      [("A", "X")] ∧
    is_perfect_first_wire oneEdgeHeap oneEdgeG [("A", "X")] =
      some (oneEdgeWireA, oneEdgeWireB, 5) ∧
    (strEdgeF 2 oneEdgeWireA 5).isSome = true ∧
    ∀ f, strEdgeF f oneEdgeWireB 5 = none := by
  refine ⟨by decide, by decide, by decide, by decide, fun f => ?_⟩
  exact (str_cycle oneEdgeWireB 3 5 (Or.inl (by decide))
    (Or.inl (by decide)) f).2

/-- C5: the claim requires construct_balanced_equivalent to terminate and
return a balanced graph for every valid input.  On the smallest
unbalanced graph (left A, right empty; valid by the first conjunct) the
deep copy completes — the graph has no edges — a dummy node is created,
and the first dummy edge add_edge(0, {}, A-copy, dummy) is attempted: the
hash at its line 105 still terminates (third conjunct), but the hash
demanded by line 106 is exhausted at every recursion depth (fourth
conjunct), so the call raises RecursionError and balancing never
completes on any unbalanced input.  (On balanced inputs with edges the
deep copy of line 21 already raises at lines 203-204, as the C7 theorem
shows.) -/
theorem construct_balanced_first_edge_hash_diverges :
    validG ⟨[⟨"A", []⟩], [], []⟩ ∧
    cbe_first_wire unbalancedHeap unbalancedG "Dummy Node 7" =
      some (unbalWireA, unbalWireB, 3) ∧
    (strEdgeF 2 unbalWireA 3).isSome = true ∧
    ∀ f, strEdgeF f unbalWireB 3 = none := by
  refine ⟨by decide, by decide, by decide, fun f => ?_⟩
  exact (str_cycle unbalWireB 1 3 (Or.inl (by decide))
    (Or.inl (by decide)) f).2

/-- C7: the claim asserts that each transformation returns a new graph
and leaves the input unchanged.  add_node_attributes — like
add_edge_attributes, modify_graph and construct_balanced_equivalent —
begins with G_prime = self.__deepcopy__(), which is
extract_edge_induced_subgraph(self, lambda edge: True); on the valid
one-edge graph A→X the copy phase completes and the single edge is
copied and wired: line 203's hash still terminates (second conjunct),
and the hash demanded by line 204 is exhausted at every recursion depth
(third conjunct).  The deep copy raises RecursionError on every graph
with at least one edge, so no deep-copying transformation ever returns a
new graph on such inputs.  (The non-mutation half of the claim is not
contradicted: every write of the run targets a freshly allocated
copy.) -/
theorem transformation_deepcopy_hash_diverges :
    deepcopy_first_wire oneEdgeHeap oneEdgeG =
      some (oneEdgeWireA, oneEdgeWireB, 5) ∧
    (strEdgeF 2 oneEdgeWireA 5).isSome = true ∧
    ∀ f, strEdgeF f oneEdgeWireB 5 = none := by
  refine ⟨by decide, by decide, fun f => ?_⟩
  exact (str_cycle oneEdgeWireB 3 5 (Or.inl (by decide))
    (Or.inl (by decide)) f).2
